import Mathlib

/-!
Verification of the semanticcache repository (github.com/botirk38/semanticcache).

The Go source is shallowly embedded over exact rationals: every `float32` /
`float64` value of the source is modelled as a `ℚ`, and the floating-point
square root (`math.Sqrt`, and the Newton `sqrt` of the source) is abstracted
as an explicit function argument `sqrtFn : ℚ → ℚ`; theorems that depend on
square-root behaviour take the exact algebraic facts they need about `sqrtFn`
as hypotheses.  Go maps are modelled as association lists with no duplicate
keys; Go map iteration order, which the language leaves unspecified, becomes
the order of the association list (and where it matters, theorems quantify
over that order).
-/

/-- Association-list lookup, modelling a Go map read `m[k]`. -/
def mapLookup {K α : Type} [DecidableEq K] : List (K × α) → K → Option α
  | [], _ => none
  | (k2, v) :: t, k => if k = k2 then some v else mapLookup t k

/-- Association-list insert-or-replace, modelling a Go map write `m[k] = v`:
an existing binding is replaced in place, a new one is appended. -/
def mapInsert {K α : Type} [DecidableEq K] : List (K × α) → K → α → List (K × α)
  | [], k, v => [(k, v)]
  | (k2, v2) :: t, k, v => if k = k2 then (k, v) :: t else (k2, v2) :: mapInsert t k v

/-- Association-list removal, modelling Go `delete(m, k)`. -/
def mapDelete {K α : Type} [DecidableEq K] (l : List (K × α)) (k : K) : List (K × α) :=
  l.filter (fun p => p.1 ≠ k)

theorem mapLookup_isSome_iff {K α : Type} [DecidableEq K] (l : List (K × α)) (k : K) :
    (mapLookup l k).isSome ↔ k ∈ l.map Prod.fst := by
  induction l with
  | nil => simp [mapLookup]
  | cons p t ih =>
    obtain ⟨k2, v⟩ := p
    by_cases h : k = k2 <;> simp [mapLookup, h, ih]

theorem mapLookup_insert_self {K α : Type} [DecidableEq K] (l : List (K × α)) (k : K) (v : α) :
    mapLookup (mapInsert l k v) k = some v := by
  induction l with
  | nil => simp [mapInsert, mapLookup]
  | cons p t ih =>
    obtain ⟨k2, v2⟩ := p
    by_cases h : k = k2 <;> simp [mapInsert, mapLookup, h, ih]

theorem mapLookup_insert_other {K α : Type} [DecidableEq K] (l : List (K × α)) (k j : K) (v : α)
    (hne : j ≠ k) : mapLookup (mapInsert l k v) j = mapLookup l j := by
  induction l with
  | nil => simp [mapInsert, mapLookup, hne]
  | cons p t ih =>
    obtain ⟨k2, v2⟩ := p
    by_cases h : k = k2
    · subst h
      simp [mapInsert, mapLookup, hne]
    · by_cases h2 : j = k2 <;> simp [mapInsert, mapLookup, h, h2, ih]

theorem mapLookup_delete_self {K α : Type} [DecidableEq K] (l : List (K × α)) (k : K) :
    mapLookup (mapDelete l k) k = none := by
  induction l with
  | nil => simp [mapDelete, mapLookup]
  | cons p t ih =>
    obtain ⟨k2, v2⟩ := p
    by_cases h : k2 = k
    · simpa [mapDelete, h] using ih
    · have hk : k ≠ k2 := fun hh => h hh.symm
      simp [mapDelete, mapLookup, h, hk] at ih ⊢
      exact ih

theorem mapLookup_delete_other {K α : Type} [DecidableEq K] (l : List (K × α)) (k j : K)
    (hne : j ≠ k) : mapLookup (mapDelete l k) j = mapLookup l j := by
  induction l with
  | nil => simp [mapDelete, mapLookup]
  | cons p t ih =>
    obtain ⟨k2, v2⟩ := p
    by_cases h : k2 = k
    · subst h
      have hk : j ≠ k2 := hne
      simp [mapDelete, mapLookup, hk] at ih ⊢
      exact ih
    · by_cases h2 : j = k2
      · simp [mapDelete, mapLookup, h, h2]
      · simp [mapDelete, mapLookup, h, h2] at ih ⊢
        exact ih

theorem mapInsert_of_absent {K α : Type} [DecidableEq K] (l : List (K × α)) (k : K) (v : α)
    (h : mapLookup l k = none) : mapInsert l k v = l ++ [(k, v)] := by
  induction l with
  | nil => simp [mapInsert]
  | cons p t ih =>
    obtain ⟨k2, v2⟩ := p
    by_cases hk : k = k2
    · simp [mapLookup, hk] at h
    · simp [mapLookup, hk] at h
      simp [mapInsert, hk, ih h]

/-! ## Similarity kernels (src/similarity, and CosineSimilarity of the core)

Each kernel is a pure function on two vectors.  The Go loops accumulate over
the indices of `a` after the length guard has ensured `len(a) == len(b)`;
they are rendered as sums over `List.zipWith` / `List.map`. -/

/-- DotProductSimilarity from src/similarity/dotproduct.go. -/
def DotProductSimilarity (a b : List ℚ) : ℚ :=
  if a.length ≠ b.length ∨ a.length = 0 then 0
  else (List.zipWith (fun x y => x * y) a b).sum

/-- EuclideanSimilarity from src/similarity/euclidean.go:
1 / (1 + sqrt(sum of squared differences)). -/
def EuclideanSimilarity (sqrtFn : ℚ → ℚ) (a b : List ℚ) : ℚ :=
  if a.length ≠ b.length ∨ a.length = 0 then 0
  else 1 / (1 + sqrtFn (List.zipWith (fun x y => (x - y) * (x - y)) a b).sum)

/-- ManhattanSimilarity from src/similarity/manhattan.go:
1 / (1 + sum of absolute differences). -/
def ManhattanSimilarity (a b : List ℚ) : ℚ :=
  if a.length ≠ b.length ∨ a.length = 0 then 0
  else 1 / (1 + (List.zipWith (fun x y => |x - y|) a b).sum)

/-- CosineSimilarity from src/semanticcache/cache.go: dot / (sqrt(normA) * sqrt(normB)),
returning 0 when either norm is 0. -/
def CosineSimilarity (sqrtFn : ℚ → ℚ) (a b : List ℚ) : ℚ :=
  if a.length ≠ b.length ∨ a.length = 0 then 0
  else
    let dot := (List.zipWith (fun x y => x * y) a b).sum
    let normA := (a.map (fun x => x * x)).sum
    let normB := (b.map (fun x => x * x)).sum
    if normA = 0 ∨ normB = 0 then 0
    else dot / (sqrtFn normA * sqrtFn normB)

/-- PearsonCorrelationSimilarity from src/similarity/pearson.go: the centered
cosine, with denominator sqrt(sumSqA * sumSqB), returning 0 when that is 0. -/
def PearsonCorrelationSimilarity (sqrtFn : ℚ → ℚ) (a b : List ℚ) : ℚ :=
  if a.length ≠ b.length ∨ a.length = 0 then 0
  else
    let n : ℚ := a.length
    let meanA := a.sum / n
    let meanB := b.sum / n
    let numer := (List.zipWith (fun x y => (x - meanA) * (y - meanB)) a b).sum
    let sumSqA := (a.map (fun x => (x - meanA) * (x - meanA))).sum
    let sumSqB := (b.map (fun x => (x - meanB) * (x - meanB))).sum
    let denom := sqrtFn (sumSqA * sumSqB)
    if denom = 0 then 0 else numer / denom

/-- Sum of squares of a vector, the `normA` accumulator of CosineSimilarity. -/
def sumSquares (v : List ℚ) : ℚ := (v.map (fun x => x * x)).sum

/-- Centered sum of squares of a vector: the `sumSqA` accumulator of
PearsonCorrelationSimilarity evaluated at `a = v`. -/
def centeredSumSq (v : List ℚ) : ℚ :=
  (v.map (fun x => (x - v.sum / v.length) * (x - v.sum / v.length))).sum

theorem zipWith_self_eq_map {α β : Type} (f : α → α → β) (l : List α) :
    List.zipWith f l l = l.map (fun x => f x x) := by
  induction l with
  | nil => rfl
  | cons a t ih => simp [List.zipWith, ih]

/-- C8: each of the five similarity kernels (cosine, Euclidean-similarity,
dot product, Manhattan-similarity, Pearson) returns exactly 0 whenever the
two vectors have different lengths or either vector is empty. -/
theorem kernels_zero_on_mismatch (sqrtFn : ℚ → ℚ) (a b : List ℚ)
    (h : a.length ≠ b.length ∨ a.length = 0 ∨ b.length = 0) :
    CosineSimilarity sqrtFn a b = 0 ∧ EuclideanSimilarity sqrtFn a b = 0 ∧
    DotProductSimilarity a b = 0 ∧ ManhattanSimilarity a b = 0 ∧
    PearsonCorrelationSimilarity sqrtFn a b = 0 := by
  have hg : a.length ≠ b.length ∨ a.length = 0 := by
    rcases h with h | h | h
    · exact Or.inl h
    · exact Or.inr h
    · by_cases ha : a.length = 0
      · exact Or.inr ha
      · exact Or.inl (by omega)
  refine ⟨?_, ?_, ?_, ?_, ?_⟩ <;>
    simp only [CosineSimilarity, EuclideanSimilarity, DotProductSimilarity,
      ManhattanSimilarity, PearsonCorrelationSimilarity, if_pos hg]

/-- C8 witness: all five kernels vanish on the concrete pair ([1], []). -/
theorem kernels_zero_on_mismatch_witness :
    CosineSimilarity id [1] [] = 0 ∧ EuclideanSimilarity id [1] [] = 0 ∧
    DotProductSimilarity [1] [] = 0 ∧ ManhattanSimilarity [1] [] = 0 ∧
    PearsonCorrelationSimilarity id [1] [] = 0 :=
  kernels_zero_on_mismatch id [1] [] (by simp)

/-- C9: self-similarity of the kernels on a non-empty, non-zero vector `v`
(non-zero rendered as `sumSquares v ≠ 0`): with a square root that is exact at
the points the kernels evaluate it (the floating-point "within epsilon"
idealised to exactness), cosine(v,v) = 1, euclideanSim(v,v) = 1,
manhattanSim(v,v) = 1, and pearson(v,v) = 1 when the centered norm of `v` is
nonzero. -/
theorem kernels_self_similarity (sqrtFn : ℚ → ℚ) (v : List ℚ)
    (hv : v ≠ [])
    (h0 : sqrtFn 0 = 0)
    (hsq : sqrtFn (sumSquares v) * sqrtFn (sumSquares v) = sumSquares v)
    (hnz : sumSquares v ≠ 0) :
    CosineSimilarity sqrtFn v v = 1 ∧ EuclideanSimilarity sqrtFn v v = 1 ∧
    ManhattanSimilarity v v = 1 ∧
    (sqrtFn (centeredSumSq v * centeredSumSq v) = centeredSumSq v →
      centeredSumSq v ≠ 0 → PearsonCorrelationSimilarity sqrtFn v v = 1) := by
  have hlen : ¬(v.length ≠ v.length ∨ v.length = 0) := by
    simp [List.length_eq_zero, hv]
  refine ⟨?_, ?_, ?_, ?_⟩
  · have hdot : (List.zipWith (fun x y => x * y) v v).sum = sumSquares v := by
      rw [zipWith_self_eq_map]; rfl
    have hS : (List.map (fun x => x * x) v).sum = sumSquares v := rfl
    simp only [CosineSimilarity, if_neg hlen, hdot, hS]
    rw [if_neg (by push_neg; exact ⟨hnz, hnz⟩)]
    rw [hsq]
    exact div_self hnz
  · have hz : (List.zipWith (fun x y => (x - y) * (x - y)) v v).sum = 0 := by
      rw [zipWith_self_eq_map]
      simp
    simp [EuclideanSimilarity, if_neg hlen, hz, h0, hv]
  · have hz : (List.zipWith (fun x y => |x - y|) v v).sum = 0 := by
      rw [zipWith_self_eq_map]
      simp
    simp [ManhattanSimilarity, if_neg hlen, hz, hv]
  · intro hexact hcnz
    have hnum : (List.zipWith (fun x y =>
        (x - v.sum / v.length) * (y - v.sum / v.length)) v v).sum = centeredSumSq v := by
      rw [zipWith_self_eq_map]; rfl
    simp only [PearsonCorrelationSimilarity, if_neg hlen, hnum]
    have hc : centeredSumSq v =
        (v.map (fun x => (x - v.sum / v.length) * (x - v.sum / v.length))).sum := rfl
    rw [← hc, hexact, if_neg hcnz]
    exact div_self hcnz

/-- Square-root table used by the C9 witness: exact at 0, 25 and 1/4. -/
def sqrtTable (x : ℚ) : ℚ :=
  if x = 0 then 0 else if x = 25 then 5 else if x = 1 / 4 then 1 / 2 else 0

/-- C9 witness: the self-similarity identities evaluated at v = [3, 4]. -/
theorem kernels_self_similarity_witness :
    CosineSimilarity sqrtTable [3, 4] [3, 4] = 1 ∧
    EuclideanSimilarity sqrtTable [3, 4] [3, 4] = 1 ∧
    ManhattanSimilarity [3, 4] [3, 4] = 1 ∧
    PearsonCorrelationSimilarity sqrtTable [3, 4] [3, 4] = 1 := by
  have h := kernels_self_similarity sqrtTable [3, 4] (by decide)
    (by norm_num [sqrtTable])
    (by norm_num [sqrtTable, sumSquares])
    (by norm_num [sumSquares])
  exact ⟨h.1, h.2.1, h.2.2.1,
    h.2.2.2 (by norm_num [sqrtTable, centeredSumSq]) (by norm_num [centeredSumSq])⟩

/-! ## Fixed-overlap chunker (src/chunker/fixed_overlap.go)

The tokenizer (tiktoken) is external; the input text is represented through
an abstract `tokenize` function producing its token-id sequence, and `decode`
maps a token slice back to text.  The emission loop
`for start := 0; start < totalTokens; start += stride` is rendered as a
recursion on the remaining token span; the recursion requires `0 < stride`,
which holds on every path that reaches the loop (the stride fallback is the
positive `chunkSize`). -/

/-- Chunk from src/chunker/chunker.go: a token-range slice of the input. -/
structure Chunk where
  text : String
  startToken : ℕ
  endToken : ℕ
  index : ℕ
deriving DecidableEq

/-- ChunkConfig from src/chunker/chunker.go (the fields the fixed-overlap
strategy reads; values are the already-validated non-negative ints). -/
structure ChunkConfig where
  maxTokens : ℕ
  chunkSize : ℕ
  chunkOverlap : ℕ
deriving DecidableEq

/-- Emission loop of ChunkText: emit `[start, min(start+size, N))`, advance by
`stride`, and stop as soon as a chunk reaches the end of the tokens. -/
def chunkLoop (decode : List ℕ → String) (tokens : List ℕ) (size stride : ℕ)
    (start idx : ℕ) : List Chunk :=
  if h : start < tokens.length ∧ 0 < stride then
    let e := min (start + size) tokens.length
    let c : Chunk := ⟨decode ((tokens.drop start).take (e - start)), start, e, idx⟩
    if tokens.length ≤ e then [c]
    else c :: chunkLoop decode tokens size stride (start + stride) (idx + 1)
  else []
termination_by tokens.length - start
decreasing_by omega

/-- ChunkText from src/chunker/fixed_overlap.go: single chunk when the text
fits in `chunkSize`, otherwise the overlapping emission loop with
`stride = chunkSize - chunkOverlap` (falling back to `chunkSize` when that is
not positive). -/
def ChunkText (tokenize : String → List ℕ) (decode : List ℕ → String)
    (cfg : ChunkConfig) (text : String) : Except String (List Chunk) :=
  if text = "" then Except.error "cannot chunk empty text"
  else
    let tokens := tokenize text
    if tokens.length ≤ cfg.chunkSize then
      Except.ok [⟨text, 0, tokens.length, 0⟩]
    else
      let st := cfg.chunkSize - cfg.chunkOverlap
      let stride := if st = 0 then cfg.chunkSize else st
      Except.ok (chunkLoop decode tokens cfg.chunkSize stride 0 0)

theorem chunkLoop_length (decode : List ℕ → String) (tokens : List ℕ) (size stride : ℕ)
    (hstride : 0 < stride) (hss : stride ≤ size) :
    ∀ n start idx, tokens.length - start = n → start < tokens.length →
      (chunkLoop decode tokens size stride start idx).length
        = (tokens.length - start - size + stride - 1) / stride + 1 := by
  intro n
  induction n using Nat.strong_induction_on with
  | _ n ih =>
    intro start idx hn hlt
    rw [chunkLoop]
    rw [dif_pos ⟨hlt, hstride⟩]
    by_cases hend : tokens.length ≤ min (start + size) tokens.length
    · rw [if_pos hend]
      have h1 : tokens.length - start - size = 0 := by omega
      have h2 : (0 + stride - 1) / stride = 0 := Nat.div_eq_of_lt (by omega)
      rw [h1, h2]
      simp
    · rw [if_neg hend]
      have hlt2 : start + size < tokens.length := by omega
      have hrec := ih (tokens.length - (start + stride)) (by omega) (start + stride)
        (idx + 1) rfl (by omega)
      simp only [List.length_cons, hrec]
      have ha : 1 ≤ tokens.length - start - size := by omega
      rcases Nat.lt_or_ge (tokens.length - start - size) stride with hc | hc
      · have h1 : tokens.length - (start + stride) - size = 0 := by omega
        rw [h1]
        have h2 : (0 + stride - 1) / stride = 0 := Nat.div_eq_of_lt (by omega)
        have h3 : (tokens.length - start - size + stride - 1) / stride = 1 :=
          Nat.div_eq_of_lt_le (by omega) (by omega)
        omega
      · have h1 : tokens.length - (start + stride) - size
            = tokens.length - start - size - stride := by omega
        rw [h1]
        have h2 : tokens.length - start - size + stride - 1
            = tokens.length - start - size - stride + stride - 1 + stride := by omega
        rw [h2, Nat.add_div_right _ hstride]

theorem chunkLoop_get (decode : List ℕ → String) (tokens : List ℕ) (size stride : ℕ)
    (hstride : 0 < stride) (hss : stride ≤ size) :
    ∀ n start idx, tokens.length - start = n → start < tokens.length →
      ∀ j, j < (chunkLoop decode tokens size stride start idx).length →
        (chunkLoop decode tokens size stride start idx)[j]? =
          some ⟨decode ((tokens.drop (start + j * stride)).take
              (min (start + j * stride + size) tokens.length - (start + j * stride))),
            start + j * stride, min (start + j * stride + size) tokens.length, idx + j⟩ := by
  intro n
  induction n using Nat.strong_induction_on with
  | _ n ih =>
    intro start idx hn hlt j hj
    have hunfold : chunkLoop decode tokens size stride start idx
        = if tokens.length ≤ min (start + size) tokens.length then
            [⟨decode ((tokens.drop start).take (min (start + size) tokens.length - start)),
              start, min (start + size) tokens.length, idx⟩]
          else
            ⟨decode ((tokens.drop start).take (min (start + size) tokens.length - start)),
              start, min (start + size) tokens.length, idx⟩ ::
              chunkLoop decode tokens size stride (start + stride) (idx + 1) := by
      rw [chunkLoop]
      rw [dif_pos ⟨hlt, hstride⟩]
    rw [hunfold] at hj ⊢
    by_cases hend : tokens.length ≤ min (start + size) tokens.length
    · rw [if_pos hend] at hj ⊢
      have hj0 : j = 0 := by
        simp at hj
        exact hj
      subst hj0
      simp
    · rw [if_neg hend] at hj ⊢
      match j with
      | 0 => simp
      | j + 1 =>
        have hj2 : j < (chunkLoop decode tokens size stride (start + stride)
            (idx + 1)).length := by
          simpa using hj
        have hrec := ih (tokens.length - (start + stride)) (by omega) (start + stride)
          (idx + 1) rfl (by omega) j hj2
        simp only [List.getElem?_cons_succ]
        rw [hrec]
        have harith : start + stride + j * stride = start + (j + 1) * stride := by ring
        rw [harith]
        have hidx : idx + 1 + j = idx + (j + 1) := by ring
        rw [hidx]

theorem ceilDiv_mul_ge (a b : ℕ) (hb : 0 < b) : a ≤ (a + b - 1) / b * b := by
  have hdm := Nat.div_add_mod (a + b - 1) b
  have hmod : (a + b - 1) % b < b := Nat.mod_lt _ hb
  have hcm : (a + b - 1) / b * b = b * ((a + b - 1) / b) := Nat.mul_comm _ _
  rw [hcm]
  obtain ⟨m, hm⟩ : ∃ m, b * ((a + b - 1) / b) = m := ⟨_, rfl⟩
  rw [hm] at hdm ⊢
  omega

/-- C7: for a non-empty input tokenizing to N tokens under a valid config
(`chunkSize = s > o = chunkOverlap ≥ 0`): if N ≤ s, ChunkText emits exactly
one chunk `[0, N)` whose text is the original input; if N > s it emits chunks
at starts 0, s-o, 2(s-o), …, each covering `[start, min(start+s, N))`, with
`Index` equal to emission order, `ceil((N-s)/(s-o)) + 1` chunks in total, the
last one reaching N. -/
theorem ChunkText_spec (tokenize : String → List ℕ) (decode : List ℕ → String)
    (cfg : ChunkConfig) (text : String) (N : ℕ)
    (htext : text ≠ "") (hov : cfg.chunkOverlap < cfg.chunkSize)
    (hN : (tokenize text).length = N) :
    (N ≤ cfg.chunkSize →
       ChunkText tokenize decode cfg text = Except.ok [⟨text, 0, N, 0⟩]) ∧
    (cfg.chunkSize < N →
       ∃ cs, ChunkText tokenize decode cfg text = Except.ok cs ∧
         cs.length = (N - cfg.chunkSize + (cfg.chunkSize - cfg.chunkOverlap) - 1)
             / (cfg.chunkSize - cfg.chunkOverlap) + 1 ∧
         (∀ j, j < cs.length → cs[j]? =
           some ⟨decode (((tokenize text).drop (j * (cfg.chunkSize - cfg.chunkOverlap))).take
              (min (j * (cfg.chunkSize - cfg.chunkOverlap) + cfg.chunkSize) N
                - j * (cfg.chunkSize - cfg.chunkOverlap))),
            j * (cfg.chunkSize - cfg.chunkOverlap),
            min (j * (cfg.chunkSize - cfg.chunkOverlap) + cfg.chunkSize) N, j⟩) ∧
         ∀ hne : cs ≠ [], (cs.getLast hne).endToken = N) := by
  constructor
  · intro hle
    simp only [ChunkText, if_neg htext]
    rw [hN, if_pos hle]
  · intro hgt
    have hstride : 0 < cfg.chunkSize - cfg.chunkOverlap := by omega
    have hs0 : ¬(cfg.chunkSize - cfg.chunkOverlap = 0) := by omega
    have hss : cfg.chunkSize - cfg.chunkOverlap ≤ cfg.chunkSize := by omega
    have hlt0 : 0 < (tokenize text).length := by omega
    refine ⟨chunkLoop decode (tokenize text) cfg.chunkSize
      (cfg.chunkSize - cfg.chunkOverlap) 0 0, ?_, ?_, ?_, ?_⟩
    · simp only [ChunkText, if_neg htext]
      rw [hN]
      rw [if_neg (by omega)]
      simp only [hs0, if_false]
    · have h := chunkLoop_length decode (tokenize text) cfg.chunkSize
        (cfg.chunkSize - cfg.chunkOverlap) hstride hss ((tokenize text).length - 0) 0 0
        rfl hlt0
      rw [h, hN]
      simp
    · intro j hj
      have h := chunkLoop_get decode (tokenize text) cfg.chunkSize
        (cfg.chunkSize - cfg.chunkOverlap) hstride hss ((tokenize text).length - 0) 0 0
        rfl hlt0 j hj
      rw [h, hN]
      simp
    · intro hne
      set cs := chunkLoop decode (tokenize text) cfg.chunkSize
        (cfg.chunkSize - cfg.chunkOverlap) 0 0 with hcs
      have hcount : cs.length = ((tokenize text).length - 0 - cfg.chunkSize
          + (cfg.chunkSize - cfg.chunkOverlap) - 1) / (cfg.chunkSize - cfg.chunkOverlap)
            + 1 := by
        rw [hcs]
        exact chunkLoop_length decode (tokenize text) cfg.chunkSize
          (cfg.chunkSize - cfg.chunkOverlap) hstride hss ((tokenize text).length - 0) 0 0
          rfl hlt0
      rw [hN] at hcount
      simp only [Nat.sub_zero] at hcount
      have hpos : 0 < cs.length := List.length_pos.mpr hne
      have hjlt : cs.length - 1 < cs.length := by omega
      have hget := chunkLoop_get decode (tokenize text) cfg.chunkSize
        (cfg.chunkSize - cfg.chunkOverlap) hstride hss ((tokenize text).length - 0) 0 0
        rfl hlt0 (cs.length - 1) (by rw [← hcs]; exact hjlt)
      rw [← hcs] at hget
      rw [List.getElem?_eq_getElem hjlt] at hget
      have hval := Option.some.inj hget
      rw [List.getLast_eq_getElem]
      rw [hval]
      simp only [hN, Nat.zero_add]
      have hq1 : cs.length - 1 = (N - cfg.chunkSize + (cfg.chunkSize - cfg.chunkOverlap) - 1)
          / (cfg.chunkSize - cfg.chunkOverlap) := by omega
      rw [hq1]
      have hge := ceilDiv_mul_ge (N - cfg.chunkSize) (cfg.chunkSize - cfg.chunkOverlap) hstride
      obtain ⟨m, hm⟩ : ∃ m, (N - cfg.chunkSize + (cfg.chunkSize - cfg.chunkOverlap) - 1)
          / (cfg.chunkSize - cfg.chunkOverlap) * (cfg.chunkSize - cfg.chunkOverlap) = m :=
        ⟨_, rfl⟩
      rw [hm] at hge ⊢
      omega

/-- C7 witness: a 3-token input with chunkSize 5 yields the single chunk
[0, 3) carrying the original text. -/
theorem ChunkText_spec_witness :
    ChunkText (fun _ => List.range 3) (fun _ => "c") ⟨10, 5, 1⟩ "T"
      = Except.ok [⟨"T", 0, 3, 0⟩] :=
  (ChunkText_spec (fun _ => List.range 3) (fun _ => "c") ⟨10, 5, 1⟩ "T" 3
    (by decide) (by decide) (by simp)).1 (by decide)

/-! ## SemanticCache core: Lookup (src/unnamed/part_008, also src/cache.go)

Entry and Match follow the types package; the backend reached during the scan
is abstracted by the two read functions the loop calls, `getEmb`
(backend.GetEmbedding) and `getEnt` (backend.Get), each returning `none` for
a missing key.  `lookupAux` is the loop over `keys` carrying `bestMatch` and
`bestScore`; the bar starts at the caller's threshold and is raised to each
accepted score, and the comparison is `score >= bestScore`. -/

/-- Entry from src/unnamed/part_009 (types): an embedding with its value. -/
structure Entry (V : Type) where
  embedding : List ℚ
  value : V
deriving DecidableEq

/-- Match from the core: a search result value with its similarity score. -/
structure Match (V : Type) where
  value : V
  score : ℚ
deriving DecidableEq

namespace SemanticCache

/-- Scan loop of Lookup: for each key fetch the embedding (skip when absent),
compare the score against the current bar, and on success fetch the entry
(skip when absent), record it and raise the bar to the score. -/
def lookupAux {K V : Type} (cmp : List ℚ → List ℚ → ℚ) (q : List ℚ)
    (getEmb : K → Option (List ℚ)) (getEnt : K → Option (Entry V)) :
    List K → Option (Match V) → ℚ → Option (Match V)
  | [], best, _ => best
  | k :: ks, best, bar =>
    match getEmb k with
    | none => lookupAux cmp q getEmb getEnt ks best bar
    | some emb =>
      if bar ≤ cmp q emb then
        match getEnt k with
        | some entry => lookupAux cmp q getEmb getEnt ks
            (some ⟨entry.value, cmp q emb⟩) (cmp q emb)
        | none => lookupAux cmp q getEmb getEnt ks best bar
      else lookupAux cmp q getEmb getEnt ks best bar

/-- Lookup from the core: embed the query (already done, `q`), list the keys,
and scan with `bestScore` starting at the threshold. -/
def Lookup {K V : Type} (cmp : List ℚ → List ℚ → ℚ) (q : List ℚ)
    (getEmb : K → Option (List ℚ)) (getEnt : K → Option (Entry V))
    (keys : List K) (threshold : ℚ) : Option (Match V) :=
  lookupAux cmp q getEmb getEnt keys none threshold

theorem lookupAux_cons_present {K V : Type} (cmp : List ℚ → List ℚ → ℚ) (q : List ℚ)
    (embOf : K → List ℚ) (entOf : K → Entry V) (k : K) (ks : List K)
    (best : Option (Match V)) (bar : ℚ) :
    lookupAux cmp q (fun j => some (embOf j)) (fun j => some (entOf j)) (k :: ks) best bar
      = if bar ≤ cmp q (embOf k) then
          lookupAux cmp q (fun j => some (embOf j)) (fun j => some (entOf j)) ks
            (some ⟨(entOf k).value, cmp q (embOf k)⟩) (cmp q (embOf k))
        else lookupAux cmp q (fun j => some (embOf j)) (fun j => some (entOf j)) ks best bar := by
  rfl

theorem lookupAux_all_below {K V : Type} (cmp : List ℚ → List ℚ → ℚ) (q : List ℚ)
    (embOf : K → List ℚ) (entOf : K → Entry V) :
    ∀ (keys : List K) (best : Option (Match V)) (bar : ℚ),
      (∀ k ∈ keys, cmp q (embOf k) < bar) →
      lookupAux cmp q (fun j => some (embOf j)) (fun j => some (entOf j)) keys best bar
        = best := by
  intro keys
  induction keys with
  | nil => intro best bar _; rfl
  | cons k ks ih =>
    intro best bar hall
    rw [lookupAux_cons_present]
    rw [if_neg (by
      have := hall k (by simp)
      exact not_le.mpr this)]
    exact ih best bar (fun j hj => hall j (by simp [hj]))

theorem lookupAux_indep {K V : Type} (cmp : List ℚ → List ℚ → ℚ) (q : List ℚ)
    (embOf : K → List ℚ) (entOf : K → Entry V) :
    ∀ (keys : List K) (bar : ℚ) (b1 b2 : Option (Match V)),
      (∃ k ∈ keys, bar ≤ cmp q (embOf k)) →
      lookupAux cmp q (fun j => some (embOf j)) (fun j => some (entOf j)) keys b1 bar
        = lookupAux cmp q (fun j => some (embOf j)) (fun j => some (entOf j)) keys b2 bar := by
  intro keys
  induction keys with
  | nil =>
    intro bar b1 b2 hex
    simp at hex
  | cons k ks ih =>
    intro bar b1 b2 hex
    rw [lookupAux_cons_present, lookupAux_cons_present]
    by_cases hk : bar ≤ cmp q (embOf k)
    · rw [if_pos hk, if_pos hk]
    · rw [if_neg hk, if_neg hk]
      refine ih bar b1 b2 ?_
      obtain ⟨j, hj, hjs⟩ := hex
      rcases List.mem_cons.mp hj with h | h
      · subst h; exact absurd hjs hk
      · exact ⟨j, h, hjs⟩

theorem getLast?_cons_of_ne_nil {α : Type} (a : α) (l : List α) (h : l ≠ []) :
    (a :: l).getLast? = l.getLast? := by
  cases l with
  | nil => exact absurd rfl h
  | cons b t => exact List.getLast?_cons_cons

theorem lookupAux_none_spec {K V : Type} (cmp : List ℚ → List ℚ → ℚ) (q : List ℚ)
    (embOf : K → List ℚ) (entOf : K → Entry V) :
    ∀ (keys : List K) (bar : ℚ),
      (lookupAux cmp q (fun j => some (embOf j)) (fun j => some (entOf j)) keys none bar
          = none ↔ ∀ k ∈ keys, cmp q (embOf k) < bar) ∧
      (∀ m, lookupAux cmp q (fun j => some (embOf j)) (fun j => some (entOf j)) keys none bar
          = some m →
        bar ≤ m.score ∧ (∀ k ∈ keys, cmp q (embOf k) ≤ m.score) ∧
        ∃ k0, (keys.filter (fun k => cmp q (embOf k) = m.score)).getLast? = some k0 ∧
          (entOf k0).value = m.value ∧ cmp q (embOf k0) = m.score) := by
  intro keys
  induction keys with
  | nil =>
    intro bar
    constructor
    · simp [lookupAux]
    · intro m hm
      simp [lookupAux] at hm
  | cons k ks ih =>
    intro bar
    by_cases hk : bar ≤ cmp q (embOf k)
    · by_cases hall : ∀ j ∈ ks, cmp q (embOf j) < cmp q (embOf k)
      · have heval : lookupAux cmp q (fun j => some (embOf j)) (fun j => some (entOf j))
            (k :: ks) none bar = some ⟨(entOf k).value, cmp q (embOf k)⟩ := by
          rw [lookupAux_cons_present, if_pos hk]
          exact lookupAux_all_below cmp q embOf entOf ks _ _ hall
        constructor
        · rw [heval]
          constructor
          · intro h; exact absurd h (by simp)
          · intro h
            exact absurd (h k (by simp)) (not_lt.mpr hk)
        · intro m hm
          rw [heval] at hm
          have hm2 := Option.some.inj hm
          subst hm2
          refine ⟨hk, ?_, ?_⟩
          · intro j hj
            rcases List.mem_cons.mp hj with h | h
            · subst h; exact le_refl _
            · exact le_of_lt (hall j h)
          · refine ⟨k, ?_, rfl, rfl⟩
            have hfk : (ks.filter (fun j => cmp q (embOf j) = cmp q (embOf k))) = [] := by
              rw [List.filter_eq_nil_iff]
              intro j hj
              simp only [decide_eq_true_eq]
              exact ne_of_lt (hall j hj)
            rw [List.filter_cons]
            simp [hfk]
      · push_neg at hall
        obtain ⟨j0, hj0, hj0s⟩ := hall
        have heval : lookupAux cmp q (fun j => some (embOf j)) (fun j => some (entOf j))
            (k :: ks) none bar
            = lookupAux cmp q (fun j => some (embOf j)) (fun j => some (entOf j)) ks none
                (cmp q (embOf k)) := by
          rw [lookupAux_cons_present, if_pos hk]
          exact lookupAux_indep cmp q embOf entOf ks _ _ _ ⟨j0, hj0, hj0s⟩
        obtain ⟨ihn, ihs⟩ := ih (cmp q (embOf k))
        have hnn : lookupAux cmp q (fun j => some (embOf j)) (fun j => some (entOf j)) ks none
            (cmp q (embOf k)) ≠ none := by
          intro hcon
          have := ihn.mp hcon j0 hj0
          exact absurd hj0s (not_le.mpr this)
        constructor
        · rw [heval]
          constructor
          · intro h; exact absurd h hnn
          · intro h
            have hb : bar ≤ cmp q (embOf j0) := le_trans hk hj0s
            exact absurd (h j0 (by simp [hj0])) (not_lt.mpr hb)
        · intro m hm
          rw [heval] at hm
          obtain ⟨hbar2, hbound, k0, hlast, hval, hscore⟩ := ihs m hm
          refine ⟨le_trans hk hbar2, ?_, ?_⟩
          · intro j hj
            rcases List.mem_cons.mp hj with h | h
            · rw [h]; exact hbar2
            · exact hbound j h
          · refine ⟨k0, ?_, hval, hscore⟩
            have hfne : ks.filter (fun j => cmp q (embOf j) = m.score) ≠ [] := by
              intro hcon
              rw [hcon] at hlast
              simp at hlast
            rw [List.filter_cons]
            by_cases hkm : cmp q (embOf k) = m.score
            · simp only [decide_eq_true_eq]
              rw [if_pos hkm]
              rw [getLast?_cons_of_ne_nil _ _ hfne]
              exact hlast
            · simp only [decide_eq_true_eq]
              rw [if_neg hkm]
              exact hlast
    · have heval : lookupAux cmp q (fun j => some (embOf j)) (fun j => some (entOf j))
          (k :: ks) none bar
          = lookupAux cmp q (fun j => some (embOf j)) (fun j => some (entOf j)) ks none bar := by
        rw [lookupAux_cons_present, if_neg hk]
      obtain ⟨ihn, ihs⟩ := ih bar
      constructor
      · rw [heval]
        constructor
        · intro h j hj
          rcases List.mem_cons.mp hj with h2 | h2
          · subst h2; exact not_le.mp hk
          · exact ihn.mp h j h2
        · intro h
          exact ihn.mpr (fun j hj => h j (by simp [hj]))
      · intro m hm
        rw [heval] at hm
        obtain ⟨hbar2, hbound, k0, hlast, hval, hscore⟩ := ihs m hm
        refine ⟨hbar2, ?_, ?_⟩
        · intro j hj
          rcases List.mem_cons.mp hj with h | h
          · subst h; exact le_of_lt (lt_of_lt_of_le (not_le.mp hk) hbar2)
          · exact hbound j h
        · refine ⟨k0, ?_, hval, hscore⟩
          rw [List.filter_cons]
          have hkm : ¬(cmp q (embOf k) = m.score) := by
            have : cmp q (embOf k) < m.score := lt_of_lt_of_le (not_le.mp hk) hbar2
            exact ne_of_lt this
          simp only [decide_eq_true_eq]
          rw [if_neg hkm]
          exact hlast

/-- C1: on a cache state whose stored keys all have their embedding and entry
present, Lookup returns none exactly when every stored key scores below the
threshold; otherwise it returns a Match whose score is at least the threshold
and is the maximum of all stored keys' scores (hence of all scores at or
above the threshold), and whose value is that of the last key in scan order
attaining that maximal score — a later key that ties the maximum replaces an
earlier one, because the bar comparison is `>=` against the raised bar. -/
theorem Lookup_spec {K V : Type} (cmp : List ℚ → List ℚ → ℚ) (q : List ℚ)
    (embOf : K → List ℚ) (entOf : K → Entry V) (keys : List K) (threshold : ℚ) :
    (Lookup cmp q (fun j => some (embOf j)) (fun j => some (entOf j)) keys threshold
        = none ↔ ∀ k ∈ keys, cmp q (embOf k) < threshold) ∧
    (∀ m, Lookup cmp q (fun j => some (embOf j)) (fun j => some (entOf j)) keys threshold
        = some m →
      threshold ≤ m.score ∧ (∀ k ∈ keys, cmp q (embOf k) ≤ m.score) ∧
      ∃ k0, (keys.filter (fun k => cmp q (embOf k) = m.score)).getLast? = some k0 ∧
        (entOf k0).value = m.value ∧ cmp q (embOf k0) = m.score) :=
  lookupAux_none_spec cmp q embOf entOf keys threshold

/-- C1 witness: a three-key scan with threshold 1 and scores 2, 3, 3 under
the dot-product comparator returns the last key tying the maximal score 3. -/
theorem Lookup_spec_witness :
    (1 : ℚ) ≤ (Match.mk (30 : ℕ) 3).score :=
  ((SemanticCache.Lookup_spec (fun a b => DotProductSimilarity a b) [1]
      (fun k => if k = 1 then [2] else [3])
      (fun k => ⟨(if k = 1 then [2] else [3]), k * 10⟩) [1, 2, 3] 1).2
    ⟨30, 3⟩ (by norm_num [SemanticCache.Lookup, SemanticCache.lookupAux,
      DotProductSimilarity])).1

end SemanticCache

/-! ## SemanticCache Set with chunking (src/unnamed/part_008)

The provider is the `EmbeddingProvider` contract with the optional
`BatchEmbeddingProvider` capability; the chunker a cache holds is abstracted
by its `CountTokens`, `GetMaxTokens` and `ChunkText` behaviour.  A cache-level
write is represented by the list of `(key, entry)` pairs handed to
`backend.Set`; `setWithChunks` and the non-chunking path each perform exactly
one such write. -/

/-- EmbeddingProvider with the optional EmbedBatch capability (a `none`
`embedBatch` is a provider that does not implement BatchEmbeddingProvider). -/
structure Provider where
  embedText : String → Except String (List ℚ)
  embedBatch : Option (List String → Except String (List (List ℚ)))

/-- Chunking-relevant state of a SemanticCache: the zero key of K, the
`enableChunking` flag, whether `sc.chunker != nil`, and the chunker's
CountTokens / GetMaxTokens / ChunkText behaviour. -/
structure CacheCfg (K : Type) where
  zeroKey : K
  enableChunking : Bool
  hasChunker : Bool
  countTokens : String → Except String ℕ
  maxTokens : ℕ
  chunkTextFn : String → Except String (List Chunk)

/-- One step of the summing loop of aggregateEmbeddings:
`for i := 0; i < dim && i < len(emb); i++ { aggregate[i] += emb[i] }`. -/
def addInto : List ℚ → List ℚ → List ℚ
  | [], _ => []
  | a :: as2, [] => a :: as2
  | a :: as2, e :: es => (a + e) :: addInto as2 es

/-- aggregateEmbeddings from src/unnamed/part_008: nil for no embeddings, the
embedding itself for one, else the component-wise sum (over the dimension of
the first embedding) divided by the count. -/
def aggregateEmbeddings : List (List ℚ) → List ℚ
  | [] => []
  | [e] => e
  | e0 :: e1 :: rest =>
    let sums := (e0 :: e1 :: rest).foldl addInto (List.replicate e0.length 0)
    sums.map (fun x => x / ((e0 :: e1 :: rest).length : ℚ))

/-- Per-chunk embedding loop of setWithChunks (the fallback when the provider
has no batch capability), failing fast on the first error. -/
def embedEach (f : String → Except String (List ℚ)) : List String → Except String (List (List ℚ))
  | [] => Except.ok []
  | t :: ts =>
    match f t with
    | Except.error e => Except.error e
    | Except.ok emb =>
      match embedEach f ts with
      | Except.error e => Except.error e
      | Except.ok rest => Except.ok (emb :: rest)

/-- setWithChunks from src/unnamed/part_008: embed every chunk text (batch
capability preferred), aggregate component-wise, and perform a single backend
write of the aggregate under the caller's key. -/
def setWithChunks {K V : Type} (p : Provider) (key : K) (chunks : List Chunk) (value : V) :
    Except String (List (K × Entry V)) :=
  let chunkTexts := chunks.map Chunk.text
  match p.embedBatch with
  | some eb =>
    match eb chunkTexts with
    | Except.error e => Except.error ("failed to batch embed chunks: " ++ e)
    | Except.ok embs => Except.ok [(key, ⟨aggregateEmbeddings embs, value⟩)]
  | none =>
    match embedEach p.embedText chunkTexts with
    | Except.error e => Except.error ("failed to embed chunk: " ++ e)
    | Except.ok embs => Except.ok [(key, ⟨aggregateEmbeddings embs, value⟩)]

/-- The embeddings the provider step of setWithChunks produces: EmbedBatch
when implemented, otherwise the per-text EmbedText loop. -/
def providerEmbedAll (p : Provider) (texts : List String) : Except String (List (List ℚ)) :=
  match p.embedBatch with
  | some eb => eb texts
  | none => embedEach p.embedText texts

namespace SemanticCache

/-- Set from src/unnamed/part_008: zero-key check, then the chunking decision
(chunking enabled, chunker present, CountTokens succeeds and exceeds
GetMaxTokens, ChunkText succeeds with more than one chunk) routing to
setWithChunks; every other path embeds the whole input once and performs a
single write. -/
def Set {K V : Type} [DecidableEq K] (p : Provider) (c : CacheCfg K)
    (key : K) (inputText : String) (value : V) : Except String (List (K × Entry V)) :=
  if key = c.zeroKey then Except.error "key cannot be zero value"
  else
    let normal : Except String (List (K × Entry V)) :=
      match p.embedText inputText with
      | Except.error e => Except.error e
      | Except.ok emb => Except.ok [(key, ⟨emb, value⟩)]
    if c.enableChunking && c.hasChunker then
      match c.countTokens inputText with
      | Except.ok n =>
        if c.maxTokens < n then
          match c.chunkTextFn inputText with
          | Except.ok chunks =>
            if 1 < chunks.length then setWithChunks p key chunks value else normal
          | Except.error _ => normal
        else normal
      | Except.error _ => normal
    else normal

/-- SetAsync from src/unnamed/part_008: zero-key check, a single EmbedText of
the whole input, and one backend write; the goroutine and the buffered error
channel are abstracted to the one outcome they deliver.  It performs no
chunking. -/
def SetAsync {K V : Type} [DecidableEq K] (p : Provider) (c : CacheCfg K)
    (key : K) (inputText : String) (value : V) : Except String (List (K × Entry V)) :=
  if key = c.zeroKey then Except.error "key cannot be zero value"
  else
    match p.embedText inputText with
    | Except.error e => Except.error e
    | Except.ok emb => Except.ok [(key, ⟨emb, value⟩)]

end SemanticCache

theorem addInto_length (acc emb : List ℚ) : (addInto acc emb).length = acc.length := by
  induction acc generalizing emb with
  | nil => cases emb <;> rfl
  | cons a as2 ih =>
    cases emb with
    | nil => rfl
    | cons e es => simp [addInto, ih]

theorem addInto_getD (acc emb : List ℚ) (i : ℕ) (hi : i < acc.length) :
    (addInto acc emb).getD i 0 = acc.getD i 0 + emb.getD i 0 := by
  induction acc generalizing emb i with
  | nil => simp at hi
  | cons a as2 ih =>
    cases emb with
    | nil =>
      simp [addInto]
    | cons e es =>
      cases i with
      | zero => simp [addInto]
      | succ j =>
        simp only [addInto, List.getD_cons_succ]
        exact ih es j (by simpa using hi)

theorem foldl_addInto_length (embs : List (List ℚ)) :
    ∀ acc : List ℚ, (embs.foldl addInto acc).length = acc.length := by
  induction embs with
  | nil => intro acc; rfl
  | cons e es ih =>
    intro acc
    simp only [List.foldl_cons]
    rw [ih, addInto_length]

theorem foldl_addInto_getD (embs : List (List ℚ)) :
    ∀ (acc : List ℚ) (i : ℕ), i < acc.length →
      (embs.foldl addInto acc).getD i 0
        = acc.getD i 0 + (embs.map (fun e => e.getD i 0)).sum := by
  induction embs with
  | nil => intro acc i _; simp
  | cons e es ih =>
    intro acc i hi
    simp only [List.foldl_cons, List.map_cons, List.sum_cons]
    rw [ih (addInto acc e) i (by rw [addInto_length]; exact hi)]
    rw [addInto_getD acc e i hi]
    ring

theorem getD_replicate_zero (n i : ℕ) : (List.replicate n (0 : ℚ)).getD i 0 = 0 := by
  induction n generalizing i with
  | zero => simp
  | succ m ih =>
    cases i with
    | zero => simp [List.replicate]
    | succ j => simp [List.replicate, ih]

theorem getD_map_div (l : List ℚ) (c : ℚ) (i : ℕ) (hi : i < l.length) :
    (l.map (fun x => x / c)).getD i 0 = l.getD i 0 / c := by
  induction l generalizing i with
  | nil => simp at hi
  | cons a t ih =>
    cases i with
    | zero => simp
    | succ j =>
      simp only [List.map_cons, List.getD_cons_succ]
      exact ih j (by simpa using hi)

theorem aggregateEmbeddings_mean (embs : List (List ℚ)) (D : ℕ)
    (h2 : 2 ≤ embs.length) (hdim : ∀ e ∈ embs, e.length = D) :
    (aggregateEmbeddings embs).length = D ∧
    ∀ i, i < D → (aggregateEmbeddings embs).getD i 0
        = (embs.map (fun e => e.getD i 0)).sum / (embs.length : ℚ) := by
  match embs with
  | [] => simp at h2
  | [e] => simp at h2
  | e0 :: e1 :: rest =>
    have hd0 : e0.length = D := hdim e0 (by simp)
    have hsumlen : ((e0 :: e1 :: rest).foldl addInto (List.replicate e0.length 0)).length
        = D := by
      rw [foldl_addInto_length]
      simp [hd0]
    constructor
    · simp only [aggregateEmbeddings]
      rw [List.length_map]
      exact hsumlen
    · intro i hi
      simp only [aggregateEmbeddings]
      rw [getD_map_div _ _ i (by rw [hsumlen]; exact hi)]
      rw [foldl_addInto_getD _ _ i (by simp [hd0]; exact hi)]
      rw [getD_replicate_zero]
      ring

theorem setWithChunks_ok {K V : Type} (p : Provider) (key : K) (chunks : List Chunk)
    (value : V) (embs : List (List ℚ))
    (hemb : providerEmbedAll p (chunks.map Chunk.text) = Except.ok embs) :
    setWithChunks p key chunks value
      = Except.ok [(key, ⟨aggregateEmbeddings embs, value⟩)] := by
  rw [setWithChunks]
  rw [providerEmbedAll] at hemb
  cases hb : p.embedBatch with
  | some eb =>
    rw [hb] at hemb
    have hemb2 : eb (chunks.map Chunk.text) = Except.ok embs := hemb
    simp [hemb2]
  | none =>
    rw [hb] at hemb
    have hemb2 : embedEach p.embedText (chunks.map Chunk.text) = Except.ok embs := hemb
    simp [hemb2]

/-- C3: when chunking applies (enabled, chunker present, token count above the
limit, two or more chunks) and the provider produces one embedding of
dimension D per chunk, Set performs exactly one backend write, under the
caller's key, whose embedding is the component-wise arithmetic mean of the
per-chunk embeddings (exact over ℚ, the idealised floating-point ε); no
per-chunk derived keys are written. -/
theorem SemanticCache.Set_chunked_mean {K V : Type} [DecidableEq K]
    (p : Provider) (c : CacheCfg K) (key : K) (inputText : String) (value : V)
    (n : ℕ) (chunks : List Chunk) (embs : List (List ℚ)) (D : ℕ)
    (hkey : key ≠ c.zeroKey)
    (hen : c.enableChunking = true) (hch : c.hasChunker = true)
    (hcount : c.countTokens inputText = Except.ok n) (hn : c.maxTokens < n)
    (hchunks : c.chunkTextFn inputText = Except.ok chunks) (h2 : 2 ≤ chunks.length)
    (hemb : providerEmbedAll p (chunks.map Chunk.text) = Except.ok embs)
    (hlen : embs.length = chunks.length)
    (hdim : ∀ e ∈ embs, e.length = D) :
    SemanticCache.Set p c key inputText value
        = Except.ok [(key, ⟨aggregateEmbeddings embs, value⟩)] ∧
    (aggregateEmbeddings embs).length = D ∧
    ∀ i, i < D → (aggregateEmbeddings embs).getD i 0
        = (embs.map (fun e => e.getD i 0)).sum / (embs.length : ℚ) := by
  have hmean := aggregateEmbeddings_mean embs D (by omega) hdim
  refine ⟨?_, hmean.1, hmean.2⟩
  rw [SemanticCache.Set, if_neg hkey]
  rw [hen, hch]
  simp only [Bool.and_self, if_true]
  rw [hcount]
  simp only []
  rw [if_pos hn, hchunks]
  simp only []
  rw [if_pos (by omega)]
  exact setWithChunks_ok p key chunks value embs hemb

/-- Provider used by the concrete chunking scenarios: no batch capability,
chunk texts "a", "b", "c" map to [1], [2], [6], anything else to [0]. -/
def chunkDemoProvider : Provider :=
  ⟨fun t => if t = "a" then Except.ok [1] else if t = "b" then Except.ok [2]
     else if t = "c" then Except.ok [6] else Except.ok [0], none⟩

/-- Cache configuration of the concrete chunking scenarios: chunking on,
12 counted tokens against a 10-token limit, three chunks "a", "b", "c". -/
def chunkDemoCfg : CacheCfg ℕ :=
  ⟨0, true, true, fun _ => Except.ok 12, 10,
   fun _ => Except.ok [⟨"a", 0, 5, 0⟩, ⟨"b", 4, 9, 1⟩, ⟨"c", 8, 12, 2⟩]⟩

/-- C3 witness: the concrete chunked Set stores the single aggregate entry
[3] = mean of [1], [2], [6] under the caller's key 1. -/
theorem Set_chunked_mean_witness :
    SemanticCache.Set chunkDemoProvider chunkDemoCfg 1 "T" (42 : ℕ)
      = Except.ok [(1, ⟨aggregateEmbeddings [[1], [2], [6]], 42⟩)] :=
  (SemanticCache.Set_chunked_mean chunkDemoProvider chunkDemoCfg 1 "T" 42 12
    [⟨"a", 0, 5, 0⟩, ⟨"b", 4, 9, 1⟩, ⟨"c", 8, 12, 2⟩] [[1], [2], [6]] 1
    (by decide) rfl rfl rfl (by norm_num [chunkDemoCfg]) rfl (by norm_num)
    (by rfl) (by rfl)
    (by intro e he; simp [chunkDemoProvider] at he; rcases he with h | h | h <;> simp [h])).1

/-- C4 counterexample: with chunking enabled and a 12-token input over the
10-token limit splitting into three chunks, Set stores the chunk-aggregated
embedding [3] while SetAsync embeds the whole input and stores [0]; their
outcomes differ under the identical provider and backend behaviour. -/
theorem SetAsync_neq_Set_on_chunked_input :
    SemanticCache.Set chunkDemoProvider chunkDemoCfg 1 "T" (42 : ℕ)
        = Except.ok [(1, ⟨[3], 42⟩)] ∧
    SemanticCache.SetAsync chunkDemoProvider chunkDemoCfg 1 "T" (42 : ℕ)
        = Except.ok [(1, ⟨[0], 42⟩)] ∧
    SemanticCache.Set chunkDemoProvider chunkDemoCfg 1 "T" (42 : ℕ)
        ≠ SemanticCache.SetAsync chunkDemoProvider chunkDemoCfg 1 "T" (42 : ℕ) := by
  have h1 : SemanticCache.Set chunkDemoProvider chunkDemoCfg 1 "T" (42 : ℕ)
      = Except.ok [(1, ⟨[3], 42⟩)] := by
    rw [Set_chunked_mean_witness]
    norm_num [aggregateEmbeddings, addInto]
  have h2 : SemanticCache.SetAsync chunkDemoProvider chunkDemoCfg 1 "T" (42 : ℕ)
      = Except.ok [(1, ⟨[0], 42⟩)] := by
    rw [SemanticCache.SetAsync]
    rw [if_neg (by decide : ¬(1 = chunkDemoCfg.zeroKey))]
    have hembed : chunkDemoProvider.embedText "T" = Except.ok [0] := by
      show (if "T" = "a" then Except.ok [(1 : ℚ)] else if "T" = "b" then Except.ok [2]
        else if "T" = "c" then Except.ok [6] else Except.ok [0]) = Except.ok [0]
      rw [if_neg (by decide), if_neg (by decide), if_neg (by decide)]
    rw [hembed]
  refine ⟨h1, h2, ?_⟩
  rw [h1, h2]
  simp only [ne_eq, Except.ok.injEq, List.cons.injEq, Prod.mk.injEq, Entry.mk.injEq]
  norm_num

/-- C4 amended: SetAsync never chunks — it embeds the whole input with a
single EmbedText and stores that embedding; consequently it agrees with the
synchronous Set exactly on the inputs where Set's chunking path is not taken
(chunking disabled, no chunker, token counting failing or not exceeding the
limit, or chunking yielding at most one chunk), errors included. -/
theorem SemanticCache.SetAsync_eq_Set_without_chunking {K V : Type} [DecidableEq K]
    (p : Provider) (c : CacheCfg K) (key : K) (inputText : String) (value : V)
    (hnochunk : c.enableChunking = false ∨ c.hasChunker = false
      ∨ (∃ e, c.countTokens inputText = Except.error e)
      ∨ (∃ n, c.countTokens inputText = Except.ok n ∧ n ≤ c.maxTokens)
      ∨ (∃ e, c.chunkTextFn inputText = Except.error e)
      ∨ (∃ chunks, c.chunkTextFn inputText = Except.ok chunks ∧ chunks.length ≤ 1)) :
    SemanticCache.SetAsync p c key inputText value
      = SemanticCache.Set p c key inputText value := by
  rw [SemanticCache.SetAsync, SemanticCache.Set]
  by_cases hkey : key = c.zeroKey
  · rw [if_pos hkey, if_pos hkey]
  · rw [if_neg hkey, if_neg hkey]
    rcases hnochunk with h | h | h | h | h | h
    · rw [h]
      simp
    · rw [h]
      simp
    · obtain ⟨e, he⟩ := h
      by_cases hcc : c.enableChunking && c.hasChunker
      · rw [if_pos hcc, he]
      · rw [if_neg hcc]
    · obtain ⟨n, hn, hle⟩ := h
      by_cases hcc : c.enableChunking && c.hasChunker
      · rw [if_pos hcc, hn]
        simp only []
        rw [if_neg (by omega)]
      · rw [if_neg hcc]
    · obtain ⟨e, he⟩ := h
      by_cases hcc : c.enableChunking && c.hasChunker
      · rw [if_pos hcc]
        cases hct : c.countTokens inputText with
        | error e2 => rfl
        | ok n =>
          simp only []
          by_cases hgt : c.maxTokens < n
          · rw [if_pos hgt, he]
          · rw [if_neg hgt]
      · rw [if_neg hcc]
    · obtain ⟨chunks, hck, hle⟩ := h
      by_cases hcc : c.enableChunking && c.hasChunker
      · rw [if_pos hcc]
        cases hct : c.countTokens inputText with
        | error e2 => rfl
        | ok n =>
          simp only []
          by_cases hgt : c.maxTokens < n
          · rw [if_pos hgt, hck]
            simp only []
            rw [if_neg (by omega)]
          · rw [if_neg hgt]
      · rw [if_neg hcc]

/-- C4 witness: a 5-token input under the 10-token limit takes the same path
in SetAsync and Set, producing identical outcomes. -/
theorem SetAsync_eq_Set_witness :
    SemanticCache.SetAsync chunkDemoProvider
        ⟨0, true, true, fun _ => Except.ok 5, 10, fun _ => Except.ok []⟩ 1 "T" (42 : ℕ)
      = SemanticCache.Set chunkDemoProvider
        ⟨0, true, true, fun _ => Except.ok 5, 10, fun _ => Except.ok []⟩ 1 "T" 42 :=
  SemanticCache.SetAsync_eq_Set_without_chunking chunkDemoProvider
    ⟨0, true, true, fun _ => Except.ok 5, 10, fun _ => Except.ok []⟩ 1 "T" 42
    (Or.inr (Or.inr (Or.inr (Or.inl ⟨5, rfl, by norm_num⟩))))

/-! ## FIFO backend (src/backends/inmemory/fifo.go)

The three Go maps and the queue slice become association lists and a list of
keys; read-only methods return the unchanged state alongside their result,
mirroring bodies that take only the read lock and perform no writes.  The
capacity is a Go int, kept as ℤ so the `capacity > 0` guard reads as in the
source. -/

/-- FIFOBackend state: value store, embedding index, insertion queue,
capacity. -/
structure FIFOBackend (K V : Type) where
  entries : List (K × Entry V)
  index : List (K × List ℚ)
  queue : List K
  capacity : ℤ

namespace FIFOBackend

/-- Set: replace in place when the key exists (queue untouched); otherwise
evict the queue head when at a positive capacity, then append the new key. -/
def Set {K V : Type} [DecidableEq K] (b : FIFOBackend K V) (key : K) (entry : Entry V) :
    FIFOBackend K V :=
  if (mapLookup b.entries key).isSome then
    { b with entries := mapInsert b.entries key entry,
             index := mapInsert b.index key entry.embedding }
  else
    let b1 :=
      if b.capacity ≤ (b.entries.length : ℤ) ∧ 0 < b.capacity then
        match b.queue with
        | [] => b
        | oldest :: rest =>
          { b with entries := mapDelete b.entries oldest,
                   index := mapDelete b.index oldest,
                   queue := rest }
      else b
    { b1 with entries := mapInsert b1.entries key entry,
              index := mapInsert b1.index key entry.embedding,
              queue := b1.queue ++ [key] }

/-- Get: a read under the read lock; the state is returned unchanged. -/
def Get {K V : Type} [DecidableEq K] (b : FIFOBackend K V) (key : K) :
    Option (Entry V) × FIFOBackend K V :=
  (mapLookup b.entries key, b)

/-- Delete: remove from both maps and erase the first queue occurrence. -/
def Delete {K V : Type} [DecidableEq K] (b : FIFOBackend K V) (key : K) : FIFOBackend K V :=
  if (mapLookup b.entries key).isSome then
    { b with entries := mapDelete b.entries key,
             index := mapDelete b.index key,
             queue := b.queue.erase key }
  else b

/-- Contains: presence in the value store, state unchanged. -/
def Contains {K V : Type} [DecidableEq K] (b : FIFOBackend K V) (key : K) :
    Bool × FIFOBackend K V :=
  ((mapLookup b.entries key).isSome, b)

/-- Flush: reset both maps and the queue. -/
def Flush {K V : Type} (b : FIFOBackend K V) : FIFOBackend K V :=
  { b with entries := [], index := [], queue := [] }

/-- Len: size of the value store. -/
def Len {K V : Type} (b : FIFOBackend K V) : ℕ := b.entries.length

/-- Keys: the keys of the embedding index (the map the Go method ranges
over), state unchanged. -/
def Keys {K V : Type} (b : FIFOBackend K V) : List K × FIFOBackend K V :=
  (b.index.map Prod.fst, b)

/-- GetEmbedding: index lookup, state unchanged. -/
def GetEmbedding {K V : Type} [DecidableEq K] (b : FIFOBackend K V) (key : K) :
    Option (List ℚ) × FIFOBackend K V :=
  (mapLookup b.index key, b)

/-- Well-formed FIFO state: no duplicate stored keys, and the queue lists
exactly the stored keys. -/
def WF {K V : Type} [DecidableEq K] (b : FIFOBackend K V) : Prop :=
  (b.entries.map Prod.fst).Nodup ∧ b.queue.Nodup ∧
  (∀ k, k ∈ b.queue ↔ k ∈ b.entries.map Prod.fst) ∧
  b.queue.length = b.entries.length

end FIFOBackend

theorem mapInsert_length_present {K α : Type} [DecidableEq K] (l : List (K × α)) (k : K)
    (v : α) (h : (mapLookup l k).isSome) : (mapInsert l k v).length = l.length := by
  induction l with
  | nil => simp [mapLookup] at h
  | cons p t ih =>
    obtain ⟨k2, v2⟩ := p
    by_cases hk : k = k2
    · simp [mapInsert, hk]
    · simp [mapLookup, hk] at h
      simp [mapInsert, hk, ih h]

theorem mapDelete_cons {K α : Type} [DecidableEq K] (k2 : K) (v2 : α) (t : List (K × α))
    (k : K) :
    mapDelete ((k2, v2) :: t) k
      = if k2 = k then mapDelete t k else (k2, v2) :: mapDelete t k := by
  by_cases h : k2 = k
  · simp [mapDelete, h]
  · simp [mapDelete, h]

theorem mapDelete_of_absent {K α : Type} [DecidableEq K] (l : List (K × α)) (k : K)
    (h : mapLookup l k = none) : mapDelete l k = l := by
  induction l with
  | nil => rfl
  | cons p t ih =>
    obtain ⟨k2, v2⟩ := p
    by_cases hk : k = k2
    · simp [mapLookup, hk] at h
    · have hk2 : ¬(k2 = k) := fun hh => hk hh.symm
      simp [mapLookup, hk] at h
      rw [mapDelete_cons, if_neg hk2, ih h]

theorem mapDelete_length_present {K α : Type} [DecidableEq K] (l : List (K × α)) (k : K)
    (hnd : (l.map Prod.fst).Nodup) (h : (mapLookup l k).isSome) :
    (mapDelete l k).length + 1 = l.length := by
  induction l with
  | nil => simp [mapLookup] at h
  | cons p t ih =>
    obtain ⟨k2, v2⟩ := p
    simp only [List.map_cons, List.nodup_cons] at hnd
    by_cases hk : k = k2
    · rw [mapDelete_cons, if_pos hk.symm]
      have hmem : k ∉ t.map Prod.fst := by rw [hk]; exact hnd.1
      have hnone : mapLookup t k = none := by
        cases hcase : mapLookup t k with
        | none => rfl
        | some v3 => exact absurd ((mapLookup_isSome_iff t k).mp (by simp [hcase])) hmem
      rw [mapDelete_of_absent t k hnone]
      simp
    · rw [mapDelete_cons, if_neg (fun hh => hk hh.symm)]
      simp only [List.length_cons]
      simp [mapLookup, hk] at h
      have := ih hnd.2 h
      omega

/-- C5: on a well-formed FIFO at positive capacity C holding exactly C
entries: Get never changes the state (hence never the eviction order); a Set
of a new key evicts exactly the queue head — the oldest-inserted key still
present — leaving every other entry in place and the count at C, with the new
key appended; a Set of a present key replaces its entry and embedding in
place, leaves the queue (its insertion position included) untouched, and
evicts nothing. -/
theorem FIFOBackend.Set_Get_spec {K V : Type} [DecidableEq K]
    (b : FIFOBackend K V) (C : ℤ) (hwf : FIFOBackend.WF b) (hC : 0 < C)
    (hcap : b.capacity = C) (hfull : (b.entries.length : ℤ) = C) :
    (∀ key : K, (FIFOBackend.Get b key).2 = b) ∧
    (∀ (key : K) (entry : Entry V), mapLookup b.entries key = none →
      ∃ oldest rest, b.queue = oldest :: rest ∧
        (FIFOBackend.Set b key entry).queue = rest ++ [key] ∧
        mapLookup (FIFOBackend.Set b key entry).entries oldest = none ∧
        mapLookup (FIFOBackend.Set b key entry).entries key = some entry ∧
        mapLookup (FIFOBackend.Set b key entry).index key = some entry.embedding ∧
        (∀ j, j ≠ oldest → j ≠ key →
          mapLookup (FIFOBackend.Set b key entry).entries j = mapLookup b.entries j) ∧
        (FIFOBackend.Set b key entry).entries.length = b.entries.length) ∧
    (∀ (key : K) (entry : Entry V), (mapLookup b.entries key).isSome →
      (FIFOBackend.Set b key entry).queue = b.queue ∧
      mapLookup (FIFOBackend.Set b key entry).entries key = some entry ∧
      mapLookup (FIFOBackend.Set b key entry).index key = some entry.embedding ∧
      (∀ j, j ≠ key →
        mapLookup (FIFOBackend.Set b key entry).entries j = mapLookup b.entries j) ∧
      (FIFOBackend.Set b key entry).entries.length = b.entries.length) := by
  obtain ⟨hnd, hqnd, hqmem, hqlen⟩ := hwf
  refine ⟨fun key => rfl, ?_, ?_⟩
  · intro key entry hnew
    have hqne : b.queue ≠ [] := by
      intro hcon
      have hlen0 : b.entries.length = 0 := by
        rw [← hqlen, hcon]
        rfl
      rw [hlen0] at hfull
      omega
    obtain ⟨oldest, rest, hq⟩ : ∃ oldest rest, b.queue = oldest :: rest := by
      cases hqcase : b.queue with
      | nil => exact absurd hqcase hqne
      | cons o r => exact ⟨o, r, rfl⟩
    have holdmem : oldest ∈ b.entries.map Prod.fst := (hqmem oldest).mp (by rw [hq]; simp)
    have holdsome : (mapLookup b.entries oldest).isSome :=
      (mapLookup_isSome_iff b.entries oldest).mpr holdmem
    have hkeynotin : key ∉ b.entries.map Prod.fst := by
      intro hcon
      have := (mapLookup_isSome_iff b.entries key).mpr hcon
      rw [hnew] at this
      simp at this
    have hone : oldest ≠ key := fun hcon => hkeynotin (hcon ▸ holdmem)
    have hset : FIFOBackend.Set b key entry =
        { entries := mapInsert (mapDelete b.entries oldest) key entry,
          index := mapInsert (mapDelete b.index oldest) key entry.embedding,
          queue := rest ++ [key], capacity := b.capacity } := by
      rw [FIFOBackend.Set]
      rw [if_neg (by rw [hnew]; simp)]
      rw [if_pos (by rw [hcap, hfull]; exact ⟨le_refl C, hC⟩)]
      rw [hq]
    refine ⟨oldest, rest, hq, ?_, ?_, ?_, ?_, ?_, ?_⟩
    · rw [hset]
    · rw [hset]
      simp only []
      rw [mapLookup_insert_other _ _ _ _ hone, mapLookup_delete_self]
    · rw [hset]
      simp only []
      rw [mapLookup_insert_self]
    · rw [hset]
      simp only []
      rw [mapLookup_insert_self]
    · intro j hjo hjk
      rw [hset]
      simp only []
      rw [mapLookup_insert_other _ _ _ _ hjk, mapLookup_delete_other _ _ _ hjo]
    · rw [hset]
      simp only []
      have hdelnone : mapLookup (mapDelete b.entries oldest) key = none := by
        rw [mapLookup_delete_other _ _ _ hone.symm]
        exact hnew
      rw [mapInsert_of_absent _ _ _ hdelnone]
      rw [List.length_append]
      have := mapDelete_length_present b.entries oldest hnd holdsome
      simp
      omega
  · intro key entry hsome
    have hset : FIFOBackend.Set b key entry =
        { entries := mapInsert b.entries key entry,
          index := mapInsert b.index key entry.embedding,
          queue := b.queue, capacity := b.capacity } := by
      rw [FIFOBackend.Set, if_pos hsome]
    refine ⟨by rw [hset], ?_, ?_, ?_, ?_⟩
    · rw [hset]
      simp only []
      rw [mapLookup_insert_self]
    · rw [hset]
      simp only []
      rw [mapLookup_insert_self]
    · intro j hjk
      rw [hset]
      simp only []
      rw [mapLookup_insert_other _ _ _ _ hjk]
    · rw [hset]
      simp only []
      exact mapInsert_length_present b.entries key entry hsome

/-- Concrete two-entry FIFO at capacity 2 used by the C5 witness. -/
def fifoDemo : FIFOBackend ℕ ℕ :=
  ⟨[(1, ⟨[1], 10⟩), (2, ⟨[2], 20⟩)], [(1, [1]), (2, [2])], [1, 2], 2⟩

/-- C5 witness: inserting key 3 into the full demo FIFO evicts the oldest
key 1 and appends 3, leaving queue [2, 3] and key 1 absent. -/
theorem FIFOBackend_Set_spec_witness :
    (FIFOBackend.Set fifoDemo 3 ⟨[3], 30⟩).queue = [2, 3] ∧
    mapLookup (FIFOBackend.Set fifoDemo 3 ⟨[3], 30⟩).entries 1 = none := by
  obtain ⟨oldest, rest, hq, hqq, hold, _⟩ :=
    (FIFOBackend.Set_Get_spec fifoDemo 2
      ⟨by decide, by decide, fun k => Iff.rfl, rfl⟩
      (by norm_num) rfl (by norm_num [fifoDemo])).2.1 3 ⟨[3], 30⟩ (by decide)
  have h1 : oldest = 1 := by
    have := hq.symm
    injection this
  have h2 : rest = [2] := by
    have := hq.symm
    injection this with ha hb
  constructor
  · rw [hqq, h2]
    rfl
  · rw [← h1]
    exact hold

/-! ## LFU backend (src/backends/inmemory/lfu.go)

The per-entry frequency wrapper and the two maps become association lists.
evictLFU ranges over the entries map keeping the first strictly smaller
frequency; Go leaves map iteration order unspecified (and randomizes it), so
the scan is modelled over an explicit iteration sequence — `freqList` is the
canonical one, and the minimality theorem quantifies over any sequence.  The
`minFreq = MaxInt` initial accumulator is modelled as "no candidate yet". -/

/-- LFUEntry from src/backends/inmemory/lfu.go: an entry with its frequency. -/
structure LFUEntry (V : Type) where
  entry : Entry V
  frequency : ℕ
deriving DecidableEq

/-- LFUBackend state: value store with frequencies, embedding index,
capacity. -/
structure LFUBackend (K V : Type) where
  entries : List (K × LFUEntry V)
  index : List (K × List ℚ)
  capacity : ℤ

/-- One comparison step of evictLFU: replace the candidate only on a strictly
smaller frequency, so the first minimum in iteration order is kept. -/
def lfuStep {K : Type} (best : Option (K × ℕ)) (p : K × ℕ) : Option (K × ℕ) :=
  match best with
  | none => some p
  | some q => if p.2 < q.2 then some p else some q

/-- evictLFU's choice of victim over the iteration sequence `l` of
(key, frequency) pairs. -/
def lfuVictim {K : Type} (l : List (K × ℕ)) : Option K :=
  (l.foldl lfuStep none).map Prod.fst

namespace LFUBackend

/-- The (key, frequency) pairs of the entries map, in model order. -/
def freqList {K V : Type} (b : LFUBackend K V) : List (K × ℕ) :=
  b.entries.map (fun p => (p.1, p.2.frequency))

/-- Set: an existing key gets the new entry with its frequency incremented;
a new key triggers eviction of the minimal-frequency entry when at a positive
capacity, then is stored with frequency 1. -/
def Set {K V : Type} [DecidableEq K] (b : LFUBackend K V) (key : K) (entry : Entry V) :
    LFUBackend K V :=
  match mapLookup b.entries key with
  | some old =>
    { b with entries := mapInsert b.entries key ⟨entry, old.frequency + 1⟩,
             index := mapInsert b.index key entry.embedding }
  | none =>
    let b1 :=
      if b.capacity ≤ (b.entries.length : ℤ) ∧ 0 < b.capacity then
        match lfuVictim (freqList b) with
        | some victim =>
          { b with entries := mapDelete b.entries victim,
                   index := mapDelete b.index victim }
        | none => b
      else b
    { b1 with entries := mapInsert b1.entries key ⟨entry, 1⟩,
              index := mapInsert b1.index key entry.embedding }

/-- Get: returns the entry and increments its frequency (a mutating read
taking the writer path in effect). -/
def Get {K V : Type} [DecidableEq K] (b : LFUBackend K V) (key : K) :
    Option (Entry V) × LFUBackend K V :=
  match mapLookup b.entries key with
  | some le =>
    (some le.entry,
     { b with entries := mapInsert b.entries key ⟨le.entry, le.frequency + 1⟩ })
  | none => (none, b)

/-- Delete: remove from both maps. -/
def Delete {K V : Type} [DecidableEq K] (b : LFUBackend K V) (key : K) : LFUBackend K V :=
  { b with entries := mapDelete b.entries key, index := mapDelete b.index key }

/-- Contains: presence without touching any frequency; state unchanged. -/
def Contains {K V : Type} [DecidableEq K] (b : LFUBackend K V) (key : K) :
    Bool × LFUBackend K V :=
  ((mapLookup b.entries key).isSome, b)

/-- Flush: reset both maps. -/
def Flush {K V : Type} (b : LFUBackend K V) : LFUBackend K V :=
  { b with entries := [], index := [] }

/-- Len: size of the value store. -/
def Len {K V : Type} (b : LFUBackend K V) : ℕ := b.entries.length

/-- Keys: keys of the embedding index, no frequency change; state
unchanged. -/
def Keys {K V : Type} (b : LFUBackend K V) : List K × LFUBackend K V :=
  (b.index.map Prod.fst, b)

/-- GetEmbedding: index lookup without touching any frequency; state
unchanged. -/
def GetEmbedding {K V : Type} [DecidableEq K] (b : LFUBackend K V) (key : K) :
    Option (List ℚ) × LFUBackend K V :=
  (mapLookup b.index key, b)

end LFUBackend

theorem lfuStep_fold_min {K : Type} :
    ∀ (l : List (K × ℕ)) (p0 : K × ℕ),
      ∃ p, (p ∈ l ∨ p = p0) ∧ p.2 ≤ p0.2 ∧ (∀ q ∈ l, p.2 ≤ q.2) ∧
        l.foldl lfuStep (some p0) = some p := by
  intro l
  induction l with
  | nil => intro p0; exact ⟨p0, Or.inr rfl, le_refl _, by simp, rfl⟩
  | cons q t ih =>
    intro p0
    by_cases hq : q.2 < p0.2
    · obtain ⟨p, hmem, hle, hall, hfold⟩ := ih q
      refine ⟨p, ?_, ?_, ?_, ?_⟩
      · rcases hmem with h | h
        · exact Or.inl (by simp [h])
        · exact Or.inl (by simp [h])
      · exact le_trans hle (le_of_lt hq)
      · intro r hr
        rcases List.mem_cons.mp hr with h | h
        · rw [h]; exact hle
        · exact hall r h
      · simp only [List.foldl_cons, lfuStep, if_pos hq]
        exact hfold
    · obtain ⟨p, hmem, hle, hall, hfold⟩ := ih p0
      refine ⟨p, ?_, hle, ?_, ?_⟩
      · rcases hmem with h | h
        · exact Or.inl (by simp [h])
        · exact Or.inr h
      · intro r hr
        rcases List.mem_cons.mp hr with h | h
        · rw [h]; exact le_trans hle (not_lt.mp hq)
        · exact hall r h
      · simp only [List.foldl_cons, lfuStep, if_neg hq]
        exact hfold

theorem lfuVictim_min {K : Type} (l : List (K × ℕ)) (hne : l ≠ []) :
    ∃ p, p ∈ l ∧ lfuVictim l = some p.1 ∧ ∀ q ∈ l, p.2 ≤ q.2 := by
  cases l with
  | nil => exact absurd rfl hne
  | cons p0 t =>
    obtain ⟨p, hmem, hle, hall, hfold⟩ := lfuStep_fold_min t p0
    refine ⟨p, ?_, ?_, ?_⟩
    · rcases hmem with h | h
      · exact List.mem_cons.mpr (Or.inr h)
      · exact List.mem_cons.mpr (Or.inl h)
    · rw [lfuVictim]
      simp only [List.foldl_cons, lfuStep]
      rw [hfold]
      rfl
    · intro q hq
      rcases List.mem_cons.mp hq with h | h
      · rw [h]; exact hle
      · exact hall q h

/-- C6 (amended): in the LFU backend, Set of an existing key stores the new
entry with that entry's frequency incremented, mutating nothing else and
evicting nothing; a found Get increments exactly that entry's frequency;
Contains, GetEmbedding and Keys return the state unchanged (no frequency
changes); and a new-key Set at positive capacity evicts an entry of minimal
frequency: for any iteration sequence of the map, evictLFU picks the first
minimal-frequency element of that sequence — the choice depends on the
unspecified map iteration order, not only on the cache state. -/
theorem LFUBackend.frequency_spec {K V : Type} [DecidableEq K] :
    (∀ (b : LFUBackend K V) (key : K) (entry : Entry V) (old : LFUEntry V),
      mapLookup b.entries key = some old →
      mapLookup (LFUBackend.Set b key entry).entries key
          = some ⟨entry, old.frequency + 1⟩ ∧
      (LFUBackend.Set b key entry).entries.length = b.entries.length ∧
      (∀ j, j ≠ key → mapLookup (LFUBackend.Set b key entry).entries j
          = mapLookup b.entries j)) ∧
    (∀ (b : LFUBackend K V) (key : K) (le : LFUEntry V),
      mapLookup b.entries key = some le →
      (LFUBackend.Get b key).1 = some le.entry ∧
      mapLookup (LFUBackend.Get b key).2.entries key
          = some ⟨le.entry, le.frequency + 1⟩ ∧
      (∀ j, j ≠ key → mapLookup (LFUBackend.Get b key).2.entries j
          = mapLookup b.entries j) ∧
      (LFUBackend.Get b key).2.index = b.index) ∧
    (∀ (b : LFUBackend K V) (key : K),
      (LFUBackend.Contains b key).2 = b ∧ (LFUBackend.GetEmbedding b key).2 = b ∧
      (LFUBackend.Keys b).2 = b) ∧
    (∀ l : List (K × ℕ), l ≠ [] →
      ∃ p, p ∈ l ∧ lfuVictim l = some p.1 ∧ ∀ q ∈ l, p.2 ≤ q.2) ∧
    (∀ (b : LFUBackend K V) (key : K) (entry : Entry V),
      mapLookup b.entries key = none →
      b.capacity ≤ (b.entries.length : ℤ) → 0 < b.capacity →
      ∃ p, p ∈ LFUBackend.freqList b ∧ lfuVictim (LFUBackend.freqList b) = some p.1 ∧
        (∀ q ∈ LFUBackend.freqList b, p.2 ≤ q.2) ∧
        mapLookup (LFUBackend.Set b key entry).entries p.1 = none ∧
        mapLookup (LFUBackend.Set b key entry).entries key = some ⟨entry, 1⟩) := by
  refine ⟨?_, ?_, ?_, fun l hne => lfuVictim_min l hne, ?_⟩
  · intro b key entry old hold
    have hset : LFUBackend.Set b key entry =
        { b with entries := mapInsert b.entries key ⟨entry, old.frequency + 1⟩,
                 index := mapInsert b.index key entry.embedding } := by
      rw [LFUBackend.Set, hold]
    rw [hset]
    refine ⟨mapLookup_insert_self _ _ _, ?_, ?_⟩
    · exact mapInsert_length_present b.entries key _ (by simp [hold])
    · intro j hj
      exact mapLookup_insert_other _ _ _ _ hj
  · intro b key le hle
    have hget : LFUBackend.Get b key =
        (some le.entry,
         { b with entries := mapInsert b.entries key ⟨le.entry, le.frequency + 1⟩ }) := by
      rw [LFUBackend.Get, hle]
    rw [hget]
    exact ⟨rfl, mapLookup_insert_self _ _ _,
      fun j hj => mapLookup_insert_other _ _ _ _ hj, rfl⟩
  · intro b key
    exact ⟨rfl, rfl, rfl⟩
  · intro b key entry hnone hcap hpos
    have hne : LFUBackend.freqList b ≠ [] := by
      rw [LFUBackend.freqList]
      intro hcon
      have : b.entries = [] := by
        cases hc : b.entries with
        | nil => rfl
        | cons p t => rw [hc] at hcon; simp at hcon
      rw [this] at hcap
      simp at hcap
      omega
    obtain ⟨p, hmem, hvic, hmin⟩ := lfuVictim_min (LFUBackend.freqList b) hne
    have hpk : p.1 ≠ key := by
      intro hcon
      have : p.1 ∈ b.entries.map Prod.fst := by
        rw [LFUBackend.freqList] at hmem
        obtain ⟨q, hq, hqe⟩ := List.mem_map.mp hmem
        exact List.mem_map.mpr ⟨q, hq, by rw [← hqe]⟩
      rw [hcon] at this
      have := (mapLookup_isSome_iff b.entries key).mpr this
      rw [hnone] at this
      simp at this
    have hset : LFUBackend.Set b key entry =
        { b with
            entries := mapInsert (mapDelete b.entries p.1) key ⟨entry, 1⟩,
            index := mapInsert (mapDelete b.index p.1) key entry.embedding } := by
      rw [LFUBackend.Set, hnone]
      simp only []
      rw [if_pos ⟨hcap, hpos⟩, hvic]
    rw [hset]
    refine ⟨p, hmem, hvic, hmin, ?_, mapLookup_insert_self _ _ _⟩
    rw [mapLookup_insert_other _ _ _ _ hpk, mapLookup_delete_self]

/-- Concrete one-entry LFU state used by the C6 witness. -/
def lfuDemo : LFUBackend ℕ ℕ := ⟨[(1, ⟨⟨[1], 10⟩, 2⟩)], [(1, [1])], 0⟩

/-- C6 witness: on the demo LFU, Get of key 1 returns its entry and bumps its
frequency from 2 to 3. -/
theorem LFUBackend_frequency_witness :
    (LFUBackend.Get lfuDemo 1).1 = some ⟨[1], 10⟩ ∧
    mapLookup (LFUBackend.Get lfuDemo 1).2.entries 1 = some ⟨⟨[1], 10⟩, 3⟩ := by
  obtain ⟨h1, h2, _⟩ :=
    (LFUBackend.frequency_spec (K := ℕ) (V := ℕ)).2.1 lfuDemo 1 ⟨⟨[1], 10⟩, 2⟩ rfl
  exact ⟨h1, h2⟩

/-- C6 counterexample: two iteration orders of the same two-entry frequency
map (a permutation of one another, frequencies tied at 5) make evictLFU evict
different keys, so the tie-break is a function of Go's unspecified map
iteration order, not of the cache state — it is not deterministic within a
run. -/
theorem lfuVictim_order_dependent :
    List.Perm [((1 : ℕ), (5 : ℕ)), (2, 5)] [(2, 5), (1, 5)] ∧
    lfuVictim [((1 : ℕ), (5 : ℕ)), (2, 5)] = some 1 ∧
    lfuVictim [((2 : ℕ), (5 : ℕ)), (1, 5)] = some 2 ∧
    some (1 : ℕ) ≠ some 2 := by
  refine ⟨?_, rfl, rfl, by decide⟩
  decide

/-! ## LRU backend (src/backends/inmemory/lru.go)

The value store is the third-party hashicorp golang-lru cache, which is not
part of this repository; its recency discipline is modelled from the spec.
The backend keeps its own embedding index beside it; hashicorp evictions do
not touch the index, which is why Keys filters the index through
`cache.Contains` (reconciling it) and GetEmbedding double-checks the cache,
dropping stale index entries. -/

/-- Modelled from the spec: the LRU cache of the third-party
hashicorp/golang-lru package backing LRUBackend (code not in the repository).
On every Get and Add the touched key becomes most-recently-used; on overflow
the least-recently-used entry is evicted.  `items` is kept in recency order,
least recent first. -/
structure LruCache (K V : Type) where
  items : List (K × V)
  size : ℕ

namespace LruCache

/-- Modelled from the spec: presence check that does not affect recency. -/
def containsKey {K V : Type} [DecidableEq K] (c : LruCache K V) (key : K) : Bool :=
  (mapLookup c.items key).isSome

/-- Modelled from the spec: insert or update, making the key most recently
used, and evicting the least-recently-used entry on overflow. -/
def add {K V : Type} [DecidableEq K] (c : LruCache K V) (key : K) (v : V) : LruCache K V :=
  let moved := (c.items.filter (fun p => p.1 ≠ key)) ++ [(key, v)]
  if c.size < moved.length then { c with items := moved.tail }
  else { c with items := moved }

/-- Modelled from the spec: lookup that makes a found key most recently
used. -/
def get {K V : Type} [DecidableEq K] (c : LruCache K V) (key : K) :
    Option V × LruCache K V :=
  match mapLookup c.items key with
  | some v =>
    (some v, { c with items := (c.items.filter (fun p => p.1 ≠ key)) ++ [(key, v)] })
  | none => (none, c)

/-- Modelled from the spec: removal. -/
def remove {K V : Type} [DecidableEq K] (c : LruCache K V) (key : K) : LruCache K V :=
  { c with items := c.items.filter (fun p => p.1 ≠ key) }

/-- Modelled from the spec: drop every entry. -/
def purge {K V : Type} (c : LruCache K V) : LruCache K V := { c with items := [] }

end LruCache

/-- LRUBackend state from src/backends/inmemory/lru.go: the hashicorp cache
plus the backend's own embedding index. -/
structure LRUBackend (K V : Type) where
  cache : LruCache K (Entry V)
  index : List (K × List ℚ)

namespace LRUBackend

/-- Set: add to the cache (possibly evicting silently) and write the index;
an eviction leaves its index entry stale by design. -/
def Set {K V : Type} [DecidableEq K] (b : LRUBackend K V) (key : K) (entry : Entry V) :
    LRUBackend K V :=
  { cache := b.cache.add key entry, index := mapInsert b.index key entry.embedding }

/-- Get: cache lookup (which refreshes recency); the index is untouched. -/
def Get {K V : Type} [DecidableEq K] (b : LRUBackend K V) (key : K) :
    Option (Entry V) × LRUBackend K V :=
  ((b.cache.get key).1, { b with cache := (b.cache.get key).2 })

/-- Delete: remove from the cache and the index. -/
def Delete {K V : Type} [DecidableEq K] (b : LRUBackend K V) (key : K) : LRUBackend K V :=
  { cache := b.cache.remove key, index := mapDelete b.index key }

/-- Contains: cache membership, no recency change, state unchanged. -/
def Contains {K V : Type} [DecidableEq K] (b : LRUBackend K V) (key : K) :
    Bool × LRUBackend K V :=
  (b.cache.containsKey key, b)

/-- Flush: purge the cache and reset the index. -/
def Flush {K V : Type} (b : LRUBackend K V) : LRUBackend K V :=
  { cache := b.cache.purge, index := [] }

/-- Len: size of the cache. -/
def Len {K V : Type} (b : LRUBackend K V) : ℕ := b.cache.items.length

/-- Keys: walk the index keeping only keys the cache still holds, and
replace the index with the cleaned version. -/
def Keys {K V : Type} [DecidableEq K] (b : LRUBackend K V) : List K × LRUBackend K V :=
  let valid := b.index.filter (fun p => b.cache.containsKey p.1)
  (valid.map Prod.fst, { b with index := valid })

/-- GetEmbedding: serve from the index only when the cache still holds the
key; a stale index entry is deleted and reported absent. -/
def GetEmbedding {K V : Type} [DecidableEq K] (b : LRUBackend K V) (key : K) :
    Option (List ℚ) × LRUBackend K V :=
  match mapLookup b.index key with
  | some emb =>
    if b.cache.containsKey key then (some emb, b)
    else (none, { b with index := mapDelete b.index key })
  | none => (none, b)

end LRUBackend

theorem mapLookup_mem {K α : Type} [DecidableEq K] (l : List (K × α)) (k : K) (v : α)
    (h : mapLookup l k = some v) : (k, v) ∈ l := by
  induction l with
  | nil => simp [mapLookup] at h
  | cons p t ih =>
    obtain ⟨k2, v2⟩ := p
    by_cases hk : k = k2
    · rw [mapLookup, if_pos hk] at h
      have := Option.some.inj h
      simp [hk, ← this]
    · rw [mapLookup, if_neg hk] at h
      exact List.mem_cons.mpr (Or.inr (ih h))

theorem fifo_coherent {K V : Type} [DecidableEq K] (b : FIFOBackend K V) (k : K) :
    k ∈ (FIFOBackend.Keys b).1 ↔ ((FIFOBackend.GetEmbedding b k).1).isSome := by
  rw [FIFOBackend.Keys, FIFOBackend.GetEmbedding]
  exact (mapLookup_isSome_iff b.index k).symm

theorem lfu_coherent {K V : Type} [DecidableEq K] (b : LFUBackend K V) (k : K) :
    k ∈ (LFUBackend.Keys b).1 ↔ ((LFUBackend.GetEmbedding b k).1).isSome := by
  rw [LFUBackend.Keys, LFUBackend.GetEmbedding]
  exact (mapLookup_isSome_iff b.index k).symm

theorem lru_coherent {K V : Type} [DecidableEq K] (b : LRUBackend K V) (k : K) :
    k ∈ (LRUBackend.Keys b).1 ↔ ((LRUBackend.GetEmbedding b k).1).isSome := by
  rw [LRUBackend.Keys, LRUBackend.GetEmbedding]
  cases hcase : mapLookup b.index k with
  | none =>
    simp only []
    constructor
    · intro hmem
      obtain ⟨p, hp, hpk⟩ := List.mem_map.mp hmem
      have hpin := (List.mem_filter.mp hp).1
      have hsome := (mapLookup_isSome_iff b.index k).mpr (List.mem_map.mpr ⟨p, hpin, hpk⟩)
      rw [hcase] at hsome
      simp at hsome
    · intro h
      simp at h
  | some emb =>
    simp only []
    by_cases hcont : b.cache.containsKey k = true
    · rw [if_pos hcont]
      simp only [Option.isSome_some, iff_true]
      exact List.mem_map.mpr ⟨(k, emb),
        List.mem_filter.mpr ⟨mapLookup_mem b.index k emb hcase, hcont⟩, rfl⟩
    · rw [if_neg hcont]
      simp only [Option.isSome_none, Bool.false_eq_true, iff_false]
      intro hmem
      obtain ⟨p, hp, hpk⟩ := List.mem_map.mp hmem
      have := (List.mem_filter.mp hp).2
      rw [hpk] at this
      exact hcont this

/-- One public backend operation, applied by each in-memory backend's step
function; this is the alphabet of the "every interleaving of operations" in
the coherence claim. -/
inductive CacheOp (K V : Type) where
  | set (key : K) (entry : Entry V)
  | get (key : K)
  | delete (key : K)
  | flush
  | containsOp (key : K)
  | keysOp
  | getEmbeddingOp (key : K)

/-- State transition of one operation on the FIFO backend. -/
def fifoApplyOp {K V : Type} [DecidableEq K] (b : FIFOBackend K V) :
    CacheOp K V → FIFOBackend K V
  | .set k e => FIFOBackend.Set b k e
  | .get k => (FIFOBackend.Get b k).2
  | .delete k => FIFOBackend.Delete b k
  | .flush => FIFOBackend.Flush b
  | .containsOp k => (FIFOBackend.Contains b k).2
  | .keysOp => (FIFOBackend.Keys b).2
  | .getEmbeddingOp k => (FIFOBackend.GetEmbedding b k).2

/-- State transition of one operation on the LFU backend. -/
def lfuApplyOp {K V : Type} [DecidableEq K] (b : LFUBackend K V) :
    CacheOp K V → LFUBackend K V
  | .set k e => LFUBackend.Set b k e
  | .get k => (LFUBackend.Get b k).2
  | .delete k => LFUBackend.Delete b k
  | .flush => LFUBackend.Flush b
  | .containsOp k => (LFUBackend.Contains b k).2
  | .keysOp => (LFUBackend.Keys b).2
  | .getEmbeddingOp k => (LFUBackend.GetEmbedding b k).2

/-- State transition of one operation on the LRU backend (Get, Keys and
GetEmbedding all mutate: recency, index reconciliation, stale-entry
cleanup). -/
def lruApplyOp {K V : Type} [DecidableEq K] (b : LRUBackend K V) :
    CacheOp K V → LRUBackend K V
  | .set k e => LRUBackend.Set b k e
  | .get k => (LRUBackend.Get b k).2
  | .delete k => LRUBackend.Delete b k
  | .flush => LRUBackend.Flush b
  | .containsOp k => (LRUBackend.Contains b k).2
  | .keysOp => (LRUBackend.Keys b).2
  | .getEmbeddingOp k => (LRUBackend.GetEmbedding b k).2

/-- The FIFO backend state after a sequence of operations from a fresh
backend of the given capacity. -/
def fifoRun {K V : Type} [DecidableEq K] (cap : ℤ) (ops : List (CacheOp K V)) :
    FIFOBackend K V :=
  ops.foldl fifoApplyOp ⟨[], [], [], cap⟩

/-- The LFU backend state after a sequence of operations from a fresh backend
of the given capacity. -/
def lfuRun {K V : Type} [DecidableEq K] (cap : ℤ) (ops : List (CacheOp K V)) :
    LFUBackend K V :=
  ops.foldl lfuApplyOp ⟨[], [], cap⟩

/-- The LRU backend state after a sequence of operations from a fresh backend
of the given size. -/
def lruRun {K V : Type} [DecidableEq K] (size : ℕ) (ops : List (CacheOp K V)) :
    LRUBackend K V :=
  ops.foldl lruApplyOp ⟨⟨[], size⟩, []⟩

/-- C2: for each in-memory backend (FIFO, LFU, LRU) and every sequence of
operations from a fresh backend — Set-triggered evictions included — the
observable key set and the embedding index agree: a key is in the Keys()
result exactly when GetEmbedding finds it (so keys absent from Keys() are
reported absent).  For FIFO and LFU this holds because both serve from the
index the mutators keep in lockstep; for LRU because Keys and GetEmbedding
both filter the possibly-stale index through the cache. -/
theorem index_coherence {K V : Type} [DecidableEq K] (capF capL : ℤ) (size : ℕ)
    (opsF opsL opsR : List (CacheOp K V)) (k : K) :
    (k ∈ (FIFOBackend.Keys (fifoRun capF opsF)).1
       ↔ ((FIFOBackend.GetEmbedding (fifoRun capF opsF) k).1).isSome) ∧
    (k ∈ (LFUBackend.Keys (lfuRun capL opsL)).1
       ↔ ((LFUBackend.GetEmbedding (lfuRun capL opsL) k).1).isSome) ∧
    (k ∈ (LRUBackend.Keys (lruRun size opsR)).1
       ↔ ((LRUBackend.GetEmbedding (lruRun size opsR) k).1).isSome) :=
  ⟨fifo_coherent _ k, lfu_coherent _ k, lru_coherent _ k⟩

/-- C2 witness: coherence instantiated on a concrete three-operation history
(two inserts and an LRU-eviction-sized cache) at key 2. -/
theorem index_coherence_witness :
    ((2 : ℕ) ∈ (FIFOBackend.Keys (fifoRun 1
        [CacheOp.set 1 ⟨[1], (10 : ℕ)⟩, CacheOp.set 2 ⟨[2], 20⟩])).1
      ↔ ((FIFOBackend.GetEmbedding (fifoRun 1
        [CacheOp.set 1 ⟨[1], (10 : ℕ)⟩, CacheOp.set 2 ⟨[2], 20⟩]) 2).1).isSome) ∧
    ((2 : ℕ) ∈ (LFUBackend.Keys (lfuRun 1
        [CacheOp.set 1 ⟨[1], (10 : ℕ)⟩, CacheOp.set 2 ⟨[2], 20⟩])).1
      ↔ ((LFUBackend.GetEmbedding (lfuRun 1
        [CacheOp.set 1 ⟨[1], (10 : ℕ)⟩, CacheOp.set 2 ⟨[2], 20⟩]) 2).1).isSome) ∧
    ((2 : ℕ) ∈ (LRUBackend.Keys (lruRun 1
        [CacheOp.set 1 ⟨[1], (10 : ℕ)⟩, CacheOp.set 2 ⟨[2], 20⟩])).1
      ↔ ((LRUBackend.GetEmbedding (lruRun 1
        [CacheOp.set 1 ⟨[1], (10 : ℕ)⟩, CacheOp.set 2 ⟨[2], 20⟩]) 2).1).isSome) :=
  index_coherence 1 1 1
    [CacheOp.set 1 ⟨[1], (10 : ℕ)⟩, CacheOp.set 2 ⟨[2], 20⟩]
    [CacheOp.set 1 ⟨[1], 10⟩, CacheOp.set 2 ⟨[2], 20⟩]
    [CacheOp.set 1 ⟨[1], 10⟩, CacheOp.set 2 ⟨[2], 20⟩] 2

/-! ## GetBatchAsync (src/backends/inmemory/{fifo,lru,lfu}.go)

Each in-memory GetBatchAsync spawns one goroutine that loops per-key Gets,
keeping only `err == nil && found` results, and delivers a single
AsyncBatchResult whose Error is the nil literal; the buffered channel is
abstracted to that one delivered value (plus the final backend state where
Get mutates). -/

/-- AsyncBatchResult from the types package: the entries found plus an error
slot (always nil in the in-memory implementations). -/
structure AsyncBatchResult (K V : Type) where
  entries : List (K × Entry V)
  error : Option String

namespace FIFOBackend

/-- One iteration of FIFO GetBatchAsync's loop: keep the entry when Get finds
it. -/
def batchStep {K V : Type} [DecidableEq K] (b : FIFOBackend K V)
    (m : List (K × Entry V)) (k0 : K) : List (K × Entry V) :=
  match (FIFOBackend.Get b k0).1 with
  | some e => mapInsert m k0 e
  | none => m

/-- GetBatchAsync: the single delivered result; FIFO Get does not mutate. -/
def GetBatchAsync {K V : Type} [DecidableEq K] (b : FIFOBackend K V) (keys : List K) :
    AsyncBatchResult K V :=
  { entries := keys.foldl (FIFOBackend.batchStep b) [], error := none }

end FIFOBackend

namespace LFUBackend

/-- One iteration of LFU GetBatchAsync's loop; Get increments the found
entry's frequency, so the backend state is threaded through. -/
def batchStep {K V : Type} [DecidableEq K] (acc : LFUBackend K V × List (K × Entry V))
    (k0 : K) : LFUBackend K V × List (K × Entry V) :=
  match (LFUBackend.Get acc.1 k0).1 with
  | some e => ((LFUBackend.Get acc.1 k0).2, mapInsert acc.2 k0 e)
  | none => ((LFUBackend.Get acc.1 k0).2, acc.2)

/-- GetBatchAsync: the single delivered result and the final backend state. -/
def GetBatchAsync {K V : Type} [DecidableEq K] (b : LFUBackend K V) (keys : List K) :
    AsyncBatchResult K V × LFUBackend K V :=
  ({ entries := (keys.foldl LFUBackend.batchStep (b, [])).2, error := none },
   (keys.foldl LFUBackend.batchStep (b, [])).1)

end LFUBackend

namespace LRUBackend

/-- One iteration of LRU GetBatchAsync's loop; Get refreshes recency, so the
backend state is threaded through. -/
def batchStep {K V : Type} [DecidableEq K] (acc : LRUBackend K V × List (K × Entry V))
    (k0 : K) : LRUBackend K V × List (K × Entry V) :=
  match (LRUBackend.Get acc.1 k0).1 with
  | some e => ((LRUBackend.Get acc.1 k0).2, mapInsert acc.2 k0 e)
  | none => ((LRUBackend.Get acc.1 k0).2, acc.2)

/-- GetBatchAsync: the single delivered result and the final backend state. -/
def GetBatchAsync {K V : Type} [DecidableEq K] (b : LRUBackend K V) (keys : List K) :
    AsyncBatchResult K V × LRUBackend K V :=
  ({ entries := (keys.foldl LRUBackend.batchStep (b, [])).2, error := none },
   (keys.foldl LRUBackend.batchStep (b, [])).1)

end LRUBackend

theorem mapLookup_append {K α : Type} [DecidableEq K] (l1 l2 : List (K × α)) (k : K) :
    mapLookup (l1 ++ l2) k
      = match mapLookup l1 k with
        | some v => some v
        | none => mapLookup l2 k := by
  induction l1 with
  | nil => simp [mapLookup]
  | cons p t ih =>
    obtain ⟨k2, v2⟩ := p
    by_cases hk : k = k2 <;> simp [mapLookup, hk, ih]

theorem lfuGet_fst_isSome {K V : Type} [DecidableEq K] (b : LFUBackend K V) (k : K) :
    ((LFUBackend.Get b k).1).isSome = (mapLookup b.entries k).isSome := by
  cases hc : mapLookup b.entries k <;> simp [LFUBackend.Get, hc]

theorem lfuGet_pres {K V : Type} [DecidableEq K] (b : LFUBackend K V) (k j : K) :
    (mapLookup (LFUBackend.Get b k).2.entries j).isSome
      = (mapLookup b.entries j).isSome := by
  cases hc : mapLookup b.entries k with
  | none => simp [LFUBackend.Get, hc]
  | some le =>
    simp only [LFUBackend.Get, hc]
    by_cases hj : j = k
    · subst hj
      rw [mapLookup_insert_self, hc]
      rfl
    · rw [mapLookup_insert_other _ _ _ _ hj]

theorem lruGet_fst_isSome {K V : Type} [DecidableEq K] (b : LRUBackend K V) (k : K) :
    ((LRUBackend.Get b k).1).isSome = (mapLookup b.cache.items k).isSome := by
  cases hc : mapLookup b.cache.items k <;> simp [LRUBackend.Get, LruCache.get, hc]

theorem lruGet_pres {K V : Type} [DecidableEq K] (b : LRUBackend K V) (k j : K) :
    (mapLookup (LRUBackend.Get b k).2.cache.items j).isSome
      = (mapLookup b.cache.items j).isSome := by
  cases hc : mapLookup b.cache.items k with
  | none => simp [LRUBackend.Get, LruCache.get, hc]
  | some v =>
    simp only [LRUBackend.Get, LruCache.get, hc]
    rw [mapLookup_append]
    by_cases hj : j = k
    · subst hj
      have : mapLookup (b.cache.items.filter (fun p => p.1 ≠ j)) j = none := by
        rw [show b.cache.items.filter (fun p => p.1 ≠ j) = mapDelete b.cache.items j from rfl]
        exact mapLookup_delete_self _ _
      rw [this]
      simp [mapLookup, hc]
    · have : mapLookup (b.cache.items.filter (fun p => p.1 ≠ k)) j
          = mapLookup b.cache.items j := by
        rw [show b.cache.items.filter (fun p => p.1 ≠ k) = mapDelete b.cache.items k from rfl]
        exact mapLookup_delete_other _ _ _ hj
      rw [this]
      cases hc2 : mapLookup b.cache.items j with
      | none => simp [mapLookup, hj]
      | some v2 => simp

theorem fifoBatch_mem {K V : Type} [DecidableEq K] (b : FIFOBackend K V) :
    ∀ (keys : List K) (m : List (K × Entry V)) (k : K),
      (mapLookup (keys.foldl (FIFOBackend.batchStep b) m) k).isSome
        ↔ (mapLookup m k).isSome ∨ (k ∈ keys ∧ (mapLookup b.entries k).isSome) := by
  intro keys
  induction keys with
  | nil => intro m k; simp
  | cons k0 ks ih =>
    intro m k
    rw [List.foldl_cons]
    rw [ih (FIFOBackend.batchStep b m k0) k]
    have hget : (FIFOBackend.Get b k0).1 = mapLookup b.entries k0 := rfl
    by_cases hk : k = k0
    · subst hk
      cases hc : mapLookup b.entries k with
      | none =>
        rw [FIFOBackend.batchStep, hget, hc]
        simp [hc]
      | some e =>
        rw [FIFOBackend.batchStep, hget, hc]
        rw [mapLookup_insert_self]
        simp [hc]
    · have hstep : mapLookup (FIFOBackend.batchStep b m k0) k = mapLookup m k := by
        rw [FIFOBackend.batchStep, hget]
        cases hc : mapLookup b.entries k0 with
        | none => rfl
        | some e => exact mapLookup_insert_other _ _ _ _ hk
      rw [hstep]
      simp [hk]

theorem lfuBatch_mem {K V : Type} [DecidableEq K] :
    ∀ (keys : List K) (st : LFUBackend K V) (m : List (K × Entry V)) (k : K),
      (mapLookup ((keys.foldl LFUBackend.batchStep (st, m)).2) k).isSome
        ↔ (mapLookup m k).isSome ∨ (k ∈ keys ∧ (mapLookup st.entries k).isSome) := by
  intro keys
  induction keys with
  | nil => intro st m k; simp
  | cons k0 ks ih =>
    intro st m k
    rw [List.foldl_cons]
    have hsplit : LFUBackend.batchStep (st, m) k0
        = ((LFUBackend.Get st k0).2,
           match (LFUBackend.Get st k0).1 with
           | some e => mapInsert m k0 e
           | none => m) := by
      rw [LFUBackend.batchStep]
      cases (LFUBackend.Get st k0).1 <;> rfl
    rw [hsplit]
    rw [ih]
    have hpres : ∀ j, (mapLookup (LFUBackend.Get st k0).2.entries j).isSome
        = (mapLookup st.entries j).isSome := fun j => lfuGet_pres st k0 j
    by_cases hk : k = k0
    · subst hk
      cases hc : mapLookup st.entries k with
      | none =>
        have hfst : (LFUBackend.Get st k).1 = none := by
          rw [LFUBackend.Get, hc]
        rw [hfst]
        simp [hpres, hc]
      | some le =>
        have hfst : (LFUBackend.Get st k).1 = some le.entry := by
          rw [LFUBackend.Get, hc]
        rw [hfst]
        simp only []
        rw [mapLookup_insert_self]
        simp [hc]
    · have harm : (match (LFUBackend.Get st k0).1 with
          | some e => mapInsert m k0 e
          | none => m) = m ∨
          ∃ e, (match (LFUBackend.Get st k0).1 with
          | some e => mapInsert m k0 e
          | none => m) = mapInsert m k0 e := by
        cases (LFUBackend.Get st k0).1 with
        | none => exact Or.inl rfl
        | some e => exact Or.inr ⟨e, rfl⟩
      rcases harm with h | ⟨e, h⟩ <;> rw [h]
      · simp [hpres, hk]
      · rw [mapLookup_insert_other _ _ _ _ hk]
        simp [hpres, hk]

theorem lruBatch_mem {K V : Type} [DecidableEq K] :
    ∀ (keys : List K) (st : LRUBackend K V) (m : List (K × Entry V)) (k : K),
      (mapLookup ((keys.foldl LRUBackend.batchStep (st, m)).2) k).isSome
        ↔ (mapLookup m k).isSome ∨ (k ∈ keys ∧ (mapLookup st.cache.items k).isSome) := by
  intro keys
  induction keys with
  | nil => intro st m k; simp
  | cons k0 ks ih =>
    intro st m k
    rw [List.foldl_cons]
    have hsplit : LRUBackend.batchStep (st, m) k0
        = ((LRUBackend.Get st k0).2,
           match (LRUBackend.Get st k0).1 with
           | some e => mapInsert m k0 e
           | none => m) := by
      rw [LRUBackend.batchStep]
      cases (LRUBackend.Get st k0).1 <;> rfl
    rw [hsplit]
    rw [ih]
    have hpres : ∀ j, (mapLookup (LRUBackend.Get st k0).2.cache.items j).isSome
        = (mapLookup st.cache.items j).isSome := fun j => lruGet_pres st k0 j
    by_cases hk : k = k0
    · subst hk
      cases hc : mapLookup st.cache.items k with
      | none =>
        have hfst : (LRUBackend.Get st k).1 = none := by
          rw [LRUBackend.Get, LruCache.get, hc]
        rw [hfst]
        simp [hpres, hc]
      | some v =>
        have hfst : (LRUBackend.Get st k).1 = some v := by
          rw [LRUBackend.Get, LruCache.get, hc]
        rw [hfst]
        simp only []
        rw [mapLookup_insert_self]
        simp [hc]
    · have harm : (match (LRUBackend.Get st k0).1 with
          | some e => mapInsert m k0 e
          | none => m) = m ∨
          ∃ e, (match (LRUBackend.Get st k0).1 with
          | some e => mapInsert m k0 e
          | none => m) = mapInsert m k0 e := by
        cases (LRUBackend.Get st k0).1 with
        | none => exact Or.inl rfl
        | some e => exact Or.inr ⟨e, rfl⟩
      rcases harm with h | ⟨e, h⟩ <;> rw [h]
      · simp [hpres, hk]
      · rw [mapLookup_insert_other _ _ _ _ hk]
        simp [hpres, hk]

/-- C10: for each in-memory backend, GetBatchAsync delivers exactly one
result whose Error field is nil; the Entries map holds exactly the requested
keys the backend currently stores (missing keys are silently omitted rather
than reported — and the in-memory per-key Get never returns an error, so the
`err == nil` filter in the loop discards nothing else). -/
theorem GetBatchAsync_spec {K V : Type} [DecidableEq K] (bF : FIFOBackend K V)
    (bL : LFUBackend K V) (bR : LRUBackend K V) (keys : List K) :
    (FIFOBackend.GetBatchAsync bF keys).error = none ∧
    (∀ k, (mapLookup (FIFOBackend.GetBatchAsync bF keys).entries k).isSome
        ↔ k ∈ keys ∧ (mapLookup bF.entries k).isSome) ∧
    ((LFUBackend.GetBatchAsync bL keys).1).error = none ∧
    (∀ k, (mapLookup ((LFUBackend.GetBatchAsync bL keys).1).entries k).isSome
        ↔ k ∈ keys ∧ (mapLookup bL.entries k).isSome) ∧
    ((LRUBackend.GetBatchAsync bR keys).1).error = none ∧
    (∀ k, (mapLookup ((LRUBackend.GetBatchAsync bR keys).1).entries k).isSome
        ↔ k ∈ keys ∧ (mapLookup bR.cache.items k).isSome) := by
  refine ⟨rfl, ?_, rfl, ?_, rfl, ?_⟩
  · intro k
    have h := fifoBatch_mem bF keys [] k
    simpa [FIFOBackend.GetBatchAsync, mapLookup] using h
  · intro k
    have h := lfuBatch_mem keys bL [] k
    simpa [LFUBackend.GetBatchAsync, mapLookup] using h
  · intro k
    have h := lruBatch_mem keys bR [] k
    simpa [LRUBackend.GetBatchAsync, mapLookup] using h

/-- Concrete one-entry LRU backend used by the batch witness. -/
def lruDemo : LRUBackend ℕ ℕ := ⟨⟨[(1, ⟨[1], 10⟩)], 2⟩, [(1, [1])]⟩

/-- C10 witness: on the concrete demo backends with requested keys [1, 5],
the delivered error is nil, and key 5 (absent) is in no Entries map. -/
theorem GetBatchAsync_spec_witness :
    (FIFOBackend.GetBatchAsync fifoDemo [1, 5]).error = none ∧
    ((mapLookup (FIFOBackend.GetBatchAsync fifoDemo [1, 5]).entries 5).isSome
      ↔ 5 ∈ [1, 5] ∧ (mapLookup fifoDemo.entries 5).isSome) ∧
    ((LRUBackend.GetBatchAsync lruDemo [1, 5]).1).error = none :=
  ⟨(GetBatchAsync_spec fifoDemo lfuDemo lruDemo [1, 5]).1,
   (GetBatchAsync_spec fifoDemo lfuDemo lruDemo [1, 5]).2.1 5,
   (GetBatchAsync_spec fifoDemo lfuDemo lruDemo [1, 5]).2.2.2.2.1⟩
